import Mathlib

/-!
Verification of the mahjong score application's scoring engine.

The definitions below are a shallow embedding of the functions
`getTieRankCandidateMap`, `normalizeManualTieRanks`, `calculateRankAndScore`
and `checkTotal` of the score sheet page, together with the oka computation
`okaNum`.  JavaScript numbers are modelled as exact rationals (`ℚ`);
`Math.round` is `⌊x + 1/2⌋`, which matches its behaviour on all finite
inputs.  Manual tie-rank entries are modelled as integers: the code only
ever compares them against candidate rank lists (lists of integers), so a
non-integral entry behaves exactly like an out-of-range one, and the UI only
produces integral entries.  Player records (`Record<PlayerKey, T>`) are
modelled as total functions from `PlayerKey`, unset entries as `Option`.
-/

namespace MahjongScore

inductive PlayerKey : Type
  | A | B | C | D
deriving DecidableEq, Repr

inductive TieRankMode : Type
  | shared_split | manual_order
deriving DecidableEq, Repr

inductive GameMode : Type
  | yonma | sanma
deriving DecidableEq, Repr

/-- Points entered for a hand: `none` models the empty string (unset). -/
def Points : Type := PlayerKey → Option ℚ

/-- Pointwise update of a player record, modelling `rec[key] = v`. -/
def setFun {α : Type} (f : PlayerKey → α) (k : PlayerKey) (v : α) : PlayerKey → α :=
  fun q => if q = k then v else f q

/-- `Math.round(x * 10) / 10`: round to one decimal place.
`Math.round` rounds half towards positive infinity, i.e. `⌊x + 1/2⌋`. -/
def round10 (x : ℚ) : ℚ :=
  ((⌊x * 10 + 1 / 2⌋ : ℤ) : ℚ) / 10

/-- The inner helper `computeScore` of `calculateRankAndScore`:
base uma/return computation rounded to one decimal, then the oka bonus
(a JS truthiness test: added only when nonzero), then a final rounding. -/
def computeScore (returnPoints pts umaVal okaBonus : ℚ) : ℚ :=
  let score := round10 ((pts - returnPoints) / 1000 + umaVal)
  let score := if okaBonus ≠ 0 then score + okaBonus else score
  round10 score

/-- The `{ranks, scores}` result record of `calculateRankAndScore`. -/
structure RS : Type where
  ranks : PlayerKey → ℤ
  scores : PlayerKey → ℚ

/-- The all-zero result returned for incomplete hands. -/
def zeroRS : RS := ⟨fun _ => 0, fun _ => 0⟩

/-- A `forEach` loop writing a rank and a score for every element. -/
def writeAll {β : Type} (key : β → PlayerKey) (rv : β → ℤ) (sv : β → ℚ)
    (l : List β) (st : RS) : RS :=
  l.foldl (fun st x =>
    { ranks := setFun st.ranks (key x) (rv x),
      scores := setFun st.scores (key x) (sv x) }) st

/-- Stable insertion of one element into a list already sorted by
descending points; an element is placed after all earlier elements with
greater-or-equal points, reproducing the stable JS `sort((a,b)=>b.points-a.points)`. -/
def insertDesc (x : PlayerKey × ℚ) : List (PlayerKey × ℚ) → List (PlayerKey × ℚ)
  | [] => [x]
  | y :: ys => if x.2 ≤ y.2 then y :: insertDesc x ys else x :: y :: ys

/-- Stable sort by descending points. -/
def sortByPointsDesc (l : List (PlayerKey × ℚ)) : List (PlayerKey × ℚ) :=
  l.foldl (fun acc x => insertDesc x acc) []

theorem length_dropWhile_le {α : Type} (p : α → Bool) (l : List α) :
    (l.dropWhile p).length ≤ l.length := by
  induction l with
  | nil => simp [List.dropWhile]
  | cons x xs ih =>
    by_cases h : p x = true
    · rw [List.dropWhile_cons_of_pos h]
      exact Nat.le_succ_of_le ih
    · rw [List.dropWhile_cons_of_neg h]

/-- The grouping loop with explicit fuel (the fuel only bounds the number of
iterations; the loop consumes at least one element per iteration, so any
fuel of at least the list's length gives the loop's result). -/
def groupRunsGo : ℕ → List (PlayerKey × ℚ) → List (List (PlayerKey × ℚ))
  | _, [] => []
  | 0, _ :: _ => []
  | fuel + 1, x :: xs =>
      (x :: xs.takeWhile (fun y => y.2 = x.2)) ::
        groupRunsGo fuel (xs.dropWhile (fun y => y.2 = x.2))

/-- Split a sorted list into maximal runs of equal points, reproducing the
`while (i < sorted.length) { let j = i + 1; while (...) j++; ... }` loops. -/
def groupRuns (l : List (PlayerKey × ℚ)) : List (List (PlayerKey × ℚ)) :=
  groupRunsGo l.length l

/-- `filledPoints` restricted to its non-null entries, in seat order. -/
def filledList (points : Points) (activePlayers : List PlayerKey) :
    List (PlayerKey × ℚ) :=
  activePlayers.filterMap fun p => (points p).map fun v => (p, v)

/-- The `sorted` list of `calculateRankAndScore`. -/
def sortedPlayers (points : Points) (activePlayers : List PlayerKey) :
    List (PlayerKey × ℚ) :=
  sortByPointsDesc (filledList points activePlayers)

/-- The `manual_order` validity test for one tie group: every member's
resolved manual rank lies in the group's candidate range and no two members
share a rank (`new Set(selected).size === group.length`). -/
def manualValid (rm : PlayerKey → Option ℤ) (s : ℕ)
    (g : List (PlayerKey × ℚ)) : Bool :=
  let candidates : List ℤ := (List.range g.length).map fun idx : ℕ => (s : ℤ) + (idx : ℤ)
  let selected : List ℤ := g.map fun x => (rm x.1).getD 0
  (selected.all fun r => candidates.contains r) && (selected.dedup.length == g.length)

/-- One iteration of the rank-assignment loop: process the tie group `g`
whose first member sits at 1-based sorted position `s`. -/
def applyGroup (uma : List ℚ) (okaPt returnPoints : ℚ) (tieRankMode : TieRankMode)
    (rm : PlayerKey → Option ℤ) (s : ℕ) (g : List (PlayerKey × ℚ)) (st : RS) : RS :=
  if g.length = 1 then
    writeAll Prod.fst (fun _ => (s : ℤ))
      (fun x => computeScore returnPoints x.2 (uma.getD (s - 1) 0)
        (if s = 1 then okaPt else 0)) g st
  else if tieRankMode = TieRankMode.shared_split then
    writeAll Prod.fst (fun _ => (s : ℤ))
      (fun x => computeScore returnPoints x.2
        (((uma.drop (s - 1)).take g.length).sum / (g.length : ℚ))
        (if s = 1 then okaPt / (g.length : ℚ) else 0)) g st
  else if manualValid rm s g then
    writeAll (fun pr => pr.1.1) (fun pr => pr.2)
      (fun pr => computeScore returnPoints pr.1.2 (uma.getD (pr.2.toNat - 1) 0)
        (if pr.2 = 1 then okaPt else 0))
      (g.zip (g.map fun x => (rm x.1).getD 0)) st
  else
    writeAll Prod.fst (fun _ => 0) (fun _ => 0) g st

/-- The whole rank-assignment loop over the list of tie groups, threading
the 1-based start position. -/
def processGroups (uma : List ℚ) (okaPt returnPoints : ℚ) (tieRankMode : TieRankMode)
    (rm : PlayerKey → Option ℤ) :
    ℕ → List (List (PlayerKey × ℚ)) → RS → RS
  | _, [], st => st
  | s, g :: gs, st =>
      processGroups uma okaPt returnPoints tieRankMode rm (s + g.length) gs
        (applyGroup uma okaPt returnPoints tieRankMode rm s g st)

/-- `getTieRankCandidateMap`'s loop: record the candidate rank list for
every member of every tie group of size at least two; `i` is the 0-based
index of the group's first member. -/
def candidateFromGroups :
    ℕ → List (List (PlayerKey × ℚ)) → (PlayerKey → Option (List ℤ)) →
    (PlayerKey → Option (List ℤ))
  | _, [], m => m
  | i, g :: gs, m =>
      candidateFromGroups (i + g.length) gs
        (if 2 ≤ g.length then
          g.foldl (fun m x =>
            setFun m x.1 (some ((List.range g.length).map fun idx : ℕ => (i : ℤ) + (idx : ℤ) + 1))) m
        else m)

/-- `getTieRankCandidateMap`: map each player belonging to a tie group to
that group's candidate rank list (empty map when the hand is incomplete). -/
def getTieRankCandidateMap (points : Points) (activePlayers : List PlayerKey) :
    PlayerKey → Option (List ℤ) :=
  let filled := sortedPlayers points activePlayers
  if filled.length < activePlayers.length then fun _ => none
  else candidateFromGroups 0 (groupRuns filled) (fun _ => none)

/-- State of the `normalizeManualTieRanks` loop: the map built so far and
the per-group sets of already-used ranks (`usedByGroup`), keyed by the
group's candidate list (the JS code keys by `candidates.join(",")`, which is
injective on these lists). -/
structure NormState : Type where
  next : PlayerKey → Option ℤ
  used : List (List ℤ × List ℤ)

/-- Look up the used-rank set of one group (empty when absent). -/
def lookupUsed (key : List ℤ) : List (List ℤ × List ℤ) → List ℤ
  | [] => []
  | (k, vs) :: rest => if k = key then vs else lookupUsed key rest

/-- Add a rank to one group's used-rank set. -/
def insertUsed (key : List ℤ) (v : ℤ) :
    List (List ℤ × List ℤ) → List (List ℤ × List ℤ)
  | [] => [(key, [v])]
  | (k, vs) :: rest =>
      if k = key then (k, v :: vs) :: rest else (k, vs) :: insertUsed key v rest

/-- One iteration of the `normalizeManualTieRanks` loop for player `p`. -/
def normStep (cm : PlayerKey → Option (List ℤ)) (m : PlayerKey → Option ℤ)
    (st : NormState) (p : PlayerKey) : NormState :=
  match cm p, m p with
  | some candidates, some raw =>
      if raw ∈ candidates then
        if raw ∈ lookupUsed candidates st.used then st
        else { next := setFun st.next p (some raw),
               used := insertUsed candidates raw st.used }
      else st
  | _, _ => st

/-- `normalizeManualTieRanks`: keep only manual entries that name a rank in
their group's candidate range, dropping duplicates within a group
(first seat in `activePlayers` order wins). -/
def normalizeManualTieRanks (points : Points) (m : PlayerKey → Option ℤ)
    (activePlayers : List PlayerKey) : PlayerKey → Option ℤ :=
  (activePlayers.foldl (normStep (getTieRankCandidateMap points activePlayers) m)
    { next := fun _ => none, used := [] }).next

/-- The `{ranks, scores}` record as it stands after the rank-assignment loop
and before the tobi adjustment. -/
def baseResult (points : Points) (uma : List ℚ) (okaPt : ℚ)
    (tieRankMode : TieRankMode) (manualTieRanks : PlayerKey → Option ℤ)
    (activePlayers : List PlayerKey) (returnPoints : ℚ) : RS :=
  processGroups uma okaPt returnPoints tieRankMode
    (normalizeManualTieRanks points manualTieRanks activePlayers)
    1 (groupRuns (sortedPlayers points activePlayers)) zeroRS

/-- The gate `hasTobi && tobashita && tobiBonus > 0` of the tobi block. -/
def tobiGate (sorted : List (PlayerKey × ℚ)) (tobiPlayer : Option PlayerKey)
    (tobiBonus : ℚ) : Bool :=
  (sorted.any fun x => decide (x.2 < 0)) && tobiPlayer.isSome && decide (0 < tobiBonus)

/-- `Math.min(...)` over the points of a non-empty list (the `0` default is
never reached: the caller is guarded by `hasTobi`, so the list is non-empty). -/
def listMin : List ℚ → ℚ
  | [] => 0
  | x :: xs => xs.foldl min x

/-- The penalty half of the tobi adjustment: under `shared_split` the bonus
is split over the minimum-point players whose rank is positive; under
`manual_order` every player at the last rank pays the full bonus. -/
def applyTobiPenalty (tieRankMode : TieRankMode) (tobiBonus : ℚ) (lastRank : ℤ)
    (sorted : List (PlayerKey × ℚ)) (st : RS) : RS :=
  match tieRankMode with
  | TieRankMode.shared_split =>
      let minPts := listMin (sorted.map Prod.snd)
      let bottomPlayers :=
        (sorted.filter fun x => decide (x.2 = minPts) && decide (0 < st.ranks x.1)).map Prod.fst
      if 0 < bottomPlayers.length then
        let penalty := tobiBonus / (bottomPlayers.length : ℚ)
        { st with scores :=
            bottomPlayers.foldl (fun sc k => setFun sc k (round10 (sc k - penalty))) st.scores }
      else st
  | TieRankMode.manual_order =>
      { st with scores :=
          sorted.foldl (fun sc x =>
            if st.ranks x.1 = lastRank then
              setFun sc x.1 (round10 (sc x.1 - tobiBonus))
            else sc) st.scores }

/-- The full tobi adjustment: the penalty, then the credit to the designated
tobi player (only when that player's resolved rank is positive). -/
def applyTobi (tieRankMode : TieRankMode) (tobiBonus : ℚ) (tobiPlayer : Option PlayerKey)
    (lastRank : ℤ) (sorted : List (PlayerKey × ℚ)) (st : RS) : RS :=
  let pen := applyTobiPenalty tieRankMode tobiBonus lastRank sorted st
  match tobiPlayer with
  | none => pen
  | some t =>
      if 0 < pen.ranks t then
        { pen with scores := setFun pen.scores t (round10 (pen.scores t + tobiBonus)) }
      else pen

/-- `calculateRankAndScore`: the scoring engine for one hand. -/
def calculateRankAndScore (points : Points) (uma : List ℚ) (tobiBonus : ℚ)
    (tobiPlayer : Option PlayerKey) (okaPt : ℚ) (tieRankMode : TieRankMode)
    (manualTieRanks : PlayerKey → Option ℤ) (activePlayers : List PlayerKey)
    (returnPoints : ℚ) : RS :=
  if (activePlayers.filter fun p => (points p).isSome).length < activePlayers.length then
    zeroRS
  else
    let sorted := sortedPlayers points activePlayers
    let base := baseResult points uma okaPt tieRankMode manualTieRanks activePlayers returnPoints
    if tobiGate sorted tobiPlayer tobiBonus then
      applyTobi tieRankMode tobiBonus tobiPlayer (activePlayers.length : ℤ) sorted base
    else base

inductive CheckResult : Type
  | OK | NG
deriving DecidableEq, Repr

/-- `checkTotal`: `none` models the JS `null` (unknown). Four-player mode
keeps the legacy behaviour of accepting either 100000 or 120000. -/
def checkTotal (points : Points) (activePlayers : List PlayerKey)
    (expectedTotal : ℚ) (mode : GameMode) : Option CheckResult :=
  let vals := activePlayers.map points
  if vals.any fun v => v.isNone then none
  else
    let total := (vals.filterMap id).sum
    if mode = GameMode.sanma then
      if total = expectedTotal then some CheckResult.OK else some CheckResult.NG
    else
      if total = 100000 ∨ total = 120000 then some CheckResult.OK else some CheckResult.NG

/-- The exact (unrounded) counterpart of the `shared_split` score assignment:
each member of the group starting at position `s` receives its point delta
plus the mean of the group's uma slice plus its share of the oka when the
group starts at rank 1.  This is `processGroups` with both roundings of
`computeScore` removed, used to state when rounding is lossless. -/
def scoresExact (uma : List ℚ) (okaPt returnPoints : ℚ) :
    ℕ → List (List (PlayerKey × ℚ)) → (PlayerKey → ℚ) → (PlayerKey → ℚ)
  | _, [], f => f
  | s, g :: gs, f =>
      scoresExact uma okaPt returnPoints (s + g.length) gs
        (g.foldl (fun f x =>
          setFun f x.1 ((x.2 - returnPoints) / 1000
            + ((uma.drop (s - 1)).take g.length).sum / (g.length : ℚ)
            + (if s = 1 then okaPt / (g.length : ℚ) else 0))) f)

/-- Exact scores for a whole hand under `shared_split` (zero when incomplete). -/
def calculateScoresExact (points : Points) (uma : List ℚ) (okaPt : ℚ)
    (activePlayers : List PlayerKey) (returnPoints : ℚ) : PlayerKey → ℚ :=
  if (activePlayers.filter fun p => (points p).isSome).length < activePlayers.length then
    fun _ => 0
  else
    scoresExact uma okaPt returnPoints 1
      (groupRuns (sortedPlayers points activePlayers)) (fun _ => 0)

/-! ### Basic lemmas about updates, rounding and `writeAll` -/

theorem setFun_self {α : Type} (f : PlayerKey → α) (k : PlayerKey) (v : α) :
    setFun f k v k = v := by
  simp [setFun]

theorem setFun_ne {α : Type} (f : PlayerKey → α) {q k : PlayerKey} (h : q ≠ k) (v : α) :
    setFun f k v q = f q := by
  simp [setFun, h]

/-- Being an integer multiple of one tenth. -/
def Tenth (x : ℚ) : Prop := ∃ z : ℤ, x = (z : ℚ) / 10

theorem tenth_zero : Tenth 0 := ⟨0, by norm_num⟩

theorem tenth_round10 (x : ℚ) : Tenth (round10 x) := ⟨_, rfl⟩

theorem tenth_computeScore (r p u o : ℚ) : Tenth (computeScore r p u o) := ⟨_, rfl⟩

theorem round10_tenth {x : ℚ} (h : Tenth x) : round10 x = x := by
  obtain ⟨z, rfl⟩ := h
  have h10 : ((z : ℚ) / 10) * 10 = (z : ℚ) := by field_simp
  rw [round10, h10]
  have : ⌊(z : ℚ) + 1 / 2⌋ = z + ⌊(1 / 2 : ℚ)⌋ := Int.floor_int_add z (1 / 2)
  rw [this]
  norm_num

theorem tenth_sub {x y : ℚ} (hx : Tenth x) (hy : Tenth y) : Tenth (x - y) := by
  obtain ⟨a, rfl⟩ := hx
  obtain ⟨b, rfl⟩ := hy
  exact ⟨a - b, by push_cast; ring⟩

theorem writeAll_nil {β : Type} (key : β → PlayerKey) (rv : β → ℤ) (sv : β → ℚ) (st : RS) :
    writeAll key rv sv [] st = st := rfl

theorem writeAll_cons {β : Type} (key : β → PlayerKey) (rv : β → ℤ) (sv : β → ℚ)
    (y : β) (ys : List β) (st : RS) :
    writeAll key rv sv (y :: ys) st =
      writeAll key rv sv ys
        { ranks := setFun st.ranks (key y) (rv y),
          scores := setFun st.scores (key y) (sv y) } := rfl

theorem writeAll_ranks_notMem {β : Type} (key : β → PlayerKey) (rv : β → ℤ) (sv : β → ℚ)
    (l : List β) (q : PlayerKey) (hq : ∀ x ∈ l, key x ≠ q) (st : RS) :
    (writeAll key rv sv l st).ranks q = st.ranks q := by
  induction l generalizing st with
  | nil => rfl
  | cons y ys ih =>
    rw [writeAll_cons, ih (fun x hx => hq x (List.mem_cons_of_mem y hx))]
    exact setFun_ne _ (fun h => hq y (List.mem_cons_self y ys) h.symm) _

theorem writeAll_scores_notMem {β : Type} (key : β → PlayerKey) (rv : β → ℤ) (sv : β → ℚ)
    (l : List β) (q : PlayerKey) (hq : ∀ x ∈ l, key x ≠ q) (st : RS) :
    (writeAll key rv sv l st).scores q = st.scores q := by
  induction l generalizing st with
  | nil => rfl
  | cons y ys ih =>
    rw [writeAll_cons, ih (fun x hx => hq x (List.mem_cons_of_mem y hx))]
    exact setFun_ne _ (fun h => hq y (List.mem_cons_self y ys) h.symm) _

theorem writeAll_ranks_mem {β : Type} (key : β → PlayerKey) (rv : β → ℤ) (sv : β → ℚ)
    (l : List β) (x : β) (hx : x ∈ l) (hnd : (l.map key).Nodup) (st : RS) :
    (writeAll key rv sv l st).ranks (key x) = rv x := by
  induction l generalizing st with
  | nil => cases hx
  | cons y ys ih =>
    simp only [List.map_cons, List.nodup_cons] at hnd
    rcases List.mem_cons.mp hx with rfl | hmem
    · rw [writeAll_cons]
      rw [writeAll_ranks_notMem key rv sv ys (key x)
        (fun z hz h => hnd.1 (by rw [← h]; exact List.mem_map_of_mem key hz))]
      exact setFun_self _ _ _
    · rw [writeAll_cons]
      exact ih hmem hnd.2 _

theorem writeAll_scores_mem {β : Type} (key : β → PlayerKey) (rv : β → ℤ) (sv : β → ℚ)
    (l : List β) (x : β) (hx : x ∈ l) (hnd : (l.map key).Nodup) (st : RS) :
    (writeAll key rv sv l st).scores (key x) = sv x := by
  induction l generalizing st with
  | nil => cases hx
  | cons y ys ih =>
    simp only [List.map_cons, List.nodup_cons] at hnd
    rcases List.mem_cons.mp hx with rfl | hmem
    · rw [writeAll_cons]
      rw [writeAll_scores_notMem key rv sv ys (key x)
        (fun z hz h => hnd.1 (by rw [← h]; exact List.mem_map_of_mem key hz))]
      exact setFun_self _ _ _
    · rw [writeAll_cons]
      exact ih hmem hnd.2 _

/-- Every score left by `writeAll` is the incoming score or one of the
supplied values. -/
theorem writeAll_scores_cases {β : Type} (key : β → PlayerKey) (rv : β → ℤ) (sv : β → ℚ)
    (l : List β) (q : PlayerKey) (st : RS) :
    (writeAll key rv sv l st).scores q = st.scores q ∨
      ∃ x ∈ l, (writeAll key rv sv l st).scores q = sv x := by
  induction l generalizing st with
  | nil => exact Or.inl rfl
  | cons y ys ih =>
    rw [writeAll_cons]
    rcases ih { ranks := setFun st.ranks (key y) (rv y),
                scores := setFun st.scores (key y) (sv y) } with h | ⟨x, hx, h⟩
    · rw [h]
      by_cases hq : q = key y
      · subst hq
        exact Or.inr ⟨y, List.mem_cons_self y ys, setFun_self _ _ _⟩
      · exact Or.inl (setFun_ne _ hq _)
    · exact Or.inr ⟨x, List.mem_cons_of_mem y hx, h⟩

/-! ### The sorted list, the tie groups and the filled list -/

theorem insertDesc_perm (x : PlayerKey × ℚ) (l : List (PlayerKey × ℚ)) :
    (insertDesc x l).Perm (x :: l) := by
  induction l with
  | nil => exact List.Perm.refl _
  | cons y ys ih =>
    rw [insertDesc]
    by_cases h : x.2 ≤ y.2
    · rw [if_pos h]
      exact (ih.cons y).trans (List.Perm.swap x y ys)
    · rw [if_neg h]

theorem foldl_insertDesc_perm (l acc : List (PlayerKey × ℚ)) :
    (l.foldl (fun acc x => insertDesc x acc) acc).Perm (l ++ acc) := by
  induction l generalizing acc with
  | nil => exact List.Perm.refl _
  | cons x xs ih =>
    simp only [List.foldl_cons, List.cons_append]
    exact ((ih (insertDesc x acc)).trans
      ((insertDesc_perm x acc).append_left xs)).trans List.perm_middle

theorem sortByPointsDesc_perm (l : List (PlayerKey × ℚ)) :
    (sortByPointsDesc l).Perm l := by
  simpa using foldl_insertDesc_perm l []

theorem groupRunsGo_flatten (fuel : ℕ) :
    ∀ l : List (PlayerKey × ℚ), l.length ≤ fuel → (groupRunsGo fuel l).flatten = l := by
  induction fuel with
  | zero =>
    intro l hl
    rw [List.length_eq_zero.mp (Nat.le_zero.mp hl)]
    rfl
  | succ fuel ih =>
    intro l hl
    match l with
    | [] => rfl
    | x :: xs =>
      rw [groupRunsGo, List.flatten_cons]
      rw [ih _ (le_trans (length_dropWhile_le _ _) (Nat.le_of_succ_le_succ hl))]
      rw [List.cons_append, List.takeWhile_append_dropWhile]

theorem groupRuns_flatten (l : List (PlayerKey × ℚ)) : (groupRuns l).flatten = l :=
  groupRunsGo_flatten l.length l le_rfl

theorem groupRunsGo_ne_nil (fuel : ℕ) :
    ∀ (l : List (PlayerKey × ℚ)) (g : List (PlayerKey × ℚ)),
      g ∈ groupRunsGo fuel l → g ≠ [] := by
  induction fuel with
  | zero =>
    intro l g hg
    match l with
    | [] => cases hg
    | _ :: _ => cases hg
  | succ fuel ih =>
    intro l g hg
    match l with
    | [] => cases hg
    | x :: xs =>
      rw [groupRunsGo] at hg
      rcases List.mem_cons.mp hg with rfl | h
      · exact List.cons_ne_nil _ _
      · exact ih _ g h

theorem groupRuns_ne_nil (l : List (PlayerKey × ℚ)) (g : List (PlayerKey × ℚ))
    (hg : g ∈ groupRuns l) : g ≠ [] :=
  groupRunsGo_ne_nil l.length l g hg

theorem mem_filledList (points : Points) (active : List PlayerKey) (x : PlayerKey × ℚ) :
    x ∈ filledList points active ↔ x.1 ∈ active ∧ points x.1 = some x.2 := by
  rw [filledList, List.mem_filterMap]
  constructor
  · rintro ⟨a, ha, hx⟩
    rcases Option.map_eq_some'.mp hx with ⟨v, hv, hxv⟩
    rw [← hxv]
    exact ⟨ha, hv⟩
  · rintro ⟨ha, hv⟩
    exact ⟨x.1, ha, by rw [hv]; rfl⟩

theorem filledList_eq_map (points : Points) (active : List PlayerKey)
    (h : ∀ p ∈ active, (points p).isSome) :
    filledList points active = active.map fun p => (p, (points p).getD 0) := by
  induction active with
  | nil => rfl
  | cons a as ih =>
    obtain ⟨v, hv⟩ := Option.isSome_iff_exists.mp (h a (List.mem_cons_self a as))
    rw [filledList, List.filterMap_cons, List.map_cons]
    rw [hv]
    rw [← filledList, ih fun p hp => h p (List.mem_cons_of_mem a hp)]
    simp [hv]

theorem filledList_length (points : Points) (active : List PlayerKey)
    (h : ∀ p ∈ active, (points p).isSome) :
    (filledList points active).length = active.length := by
  rw [filledList_eq_map points active h, List.length_map]

theorem sortedPlayers_perm (points : Points) (active : List PlayerKey) :
    (sortedPlayers points active).Perm (filledList points active) :=
  sortByPointsDesc_perm _

theorem sortedPlayers_keys_perm (points : Points) (active : List PlayerKey)
    (h : ∀ p ∈ active, (points p).isSome) :
    ((sortedPlayers points active).map Prod.fst).Perm active := by
  have h1 := (sortedPlayers_perm points active).map Prod.fst
  rw [filledList_eq_map points active h] at h1
  have h2 : (Prod.fst ∘ fun p : PlayerKey => (p, (points p).getD 0)) = id := rfl
  rw [List.map_map, h2, List.map_id] at h1
  exact h1

theorem sortedPlayers_keys_nodup (points : Points) (active : List PlayerKey)
    (h : ∀ p ∈ active, (points p).isSome) (hnd : active.Nodup) :
    ((sortedPlayers points active).map Prod.fst).Nodup :=
  (sortedPlayers_keys_perm points active h).nodup_iff.mpr hnd

/-! ### Which keys each part of the loop writes -/

theorem applyGroup_ranks_notMem (uma : List ℚ) (okaPt ret : ℚ) (mode : TieRankMode)
    (rm : PlayerKey → Option ℤ) (s : ℕ) (g : List (PlayerKey × ℚ)) (st : RS)
    (q : PlayerKey) (hq : ∀ x ∈ g, x.1 ≠ q) :
    (applyGroup uma okaPt ret mode rm s g st).ranks q = st.ranks q := by
  unfold applyGroup
  split
  · exact writeAll_ranks_notMem _ _ _ _ _ hq _
  split
  · exact writeAll_ranks_notMem _ _ _ _ _ hq _
  split
  · exact writeAll_ranks_notMem _ _ _ _ _
      (fun pr hpr => hq pr.1 (List.of_mem_zip hpr).1) _
  · exact writeAll_ranks_notMem _ _ _ _ _ hq _

theorem applyGroup_scores_notMem (uma : List ℚ) (okaPt ret : ℚ) (mode : TieRankMode)
    (rm : PlayerKey → Option ℤ) (s : ℕ) (g : List (PlayerKey × ℚ)) (st : RS)
    (q : PlayerKey) (hq : ∀ x ∈ g, x.1 ≠ q) :
    (applyGroup uma okaPt ret mode rm s g st).scores q = st.scores q := by
  unfold applyGroup
  split
  · exact writeAll_scores_notMem _ _ _ _ _ hq _
  split
  · exact writeAll_scores_notMem _ _ _ _ _ hq _
  split
  · exact writeAll_scores_notMem _ _ _ _ _
      (fun pr hpr => hq pr.1 (List.of_mem_zip hpr).1) _
  · exact writeAll_scores_notMem _ _ _ _ _ hq _

theorem processGroups_ranks_notMem (uma : List ℚ) (okaPt ret : ℚ) (mode : TieRankMode)
    (rm : PlayerKey → Option ℤ) (gs : List (List (PlayerKey × ℚ))) (q : PlayerKey)
    (hq : ∀ x ∈ gs.flatten, x.1 ≠ q) :
    ∀ (s : ℕ) (st : RS), (processGroups uma okaPt ret mode rm s gs st).ranks q = st.ranks q := by
  induction gs with
  | nil => intro s st; rfl
  | cons g gs ih =>
    intro s st
    rw [processGroups]
    rw [ih (fun x hx => hq x (by rw [List.flatten_cons]; exact List.mem_append_right g hx))]
    exact applyGroup_ranks_notMem _ _ _ _ _ _ _ _ _
      (fun x hx => hq x (by rw [List.flatten_cons]; exact List.mem_append_left _ hx))

theorem processGroups_scores_notMem (uma : List ℚ) (okaPt ret : ℚ) (mode : TieRankMode)
    (rm : PlayerKey → Option ℤ) (gs : List (List (PlayerKey × ℚ))) (q : PlayerKey)
    (hq : ∀ x ∈ gs.flatten, x.1 ≠ q) :
    ∀ (s : ℕ) (st : RS), (processGroups uma okaPt ret mode rm s gs st).scores q = st.scores q := by
  induction gs with
  | nil => intro s st; rfl
  | cons g gs ih =>
    intro s st
    rw [processGroups]
    rw [ih (fun x hx => hq x (by rw [List.flatten_cons]; exact List.mem_append_right g hx))]
    exact applyGroup_scores_notMem _ _ _ _ _ _ _ _ _
      (fun x hx => hq x (by rw [List.flatten_cons]; exact List.mem_append_left _ hx))

/-! ### Characterising the `shared_split` rank assignment -/

theorem applyGroup_shared_char (uma : List ℚ) (okaPt ret : ℚ) (rm : PlayerKey → Option ℤ)
    (s : ℕ) (g : List (PlayerKey × ℚ)) (st : RS) (hnd : (g.map Prod.fst).Nodup)
    (x : PlayerKey × ℚ) (hx : x ∈ g) :
    (applyGroup uma okaPt ret TieRankMode.shared_split rm s g st).ranks x.1 = (s : ℤ) ∧
    (applyGroup uma okaPt ret TieRankMode.shared_split rm s g st).scores x.1 =
      (if g.length = 1 then
        computeScore ret x.2 (uma.getD (s - 1) 0) (if s = 1 then okaPt else 0)
      else
        computeScore ret x.2 (((uma.drop (s - 1)).take g.length).sum / (g.length : ℚ))
          (if s = 1 then okaPt / (g.length : ℚ) else 0)) := by
  by_cases h1 : g.length = 1
  · rw [applyGroup, if_pos h1, if_pos h1]
    exact ⟨writeAll_ranks_mem _ _ _ _ _ hx hnd _, writeAll_scores_mem _ _ _ _ _ hx hnd _⟩
  · rw [applyGroup, if_neg h1, if_pos rfl, if_neg h1]
    exact ⟨writeAll_ranks_mem _ _ _ _ _ hx hnd _, writeAll_scores_mem _ _ _ _ _ hx hnd _⟩

theorem nodup_flatten_cons_head {g : List (PlayerKey × ℚ)} {gs : List (List (PlayerKey × ℚ))}
    (hnd : (((g :: gs).flatten).map Prod.fst).Nodup) (x : PlayerKey × ℚ) (hx : x ∈ g) :
    ∀ y ∈ gs.flatten, y.1 ≠ x.1 := by
  intro y hy
  rw [List.flatten_cons, List.map_append] at hnd
  have hdisj := List.disjoint_of_nodup_append hnd
  intro h
  exact hdisj (List.mem_map_of_mem Prod.fst hx) (h ▸ List.mem_map_of_mem Prod.fst hy)

theorem nodup_flatten_cons_tail {g : List (PlayerKey × ℚ)} {gs : List (List (PlayerKey × ℚ))}
    (hnd : (((g :: gs).flatten).map Prod.fst).Nodup) :
    ((gs.flatten).map Prod.fst).Nodup := by
  rw [List.flatten_cons, List.map_append] at hnd
  exact (List.nodup_append.mp hnd).2.1

theorem nodup_flatten_cons_group {g : List (PlayerKey × ℚ)} {gs : List (List (PlayerKey × ℚ))}
    (hnd : (((g :: gs).flatten).map Prod.fst).Nodup) :
    (g.map Prod.fst).Nodup := by
  rw [List.flatten_cons, List.map_append] at hnd
  exact (List.nodup_append.mp hnd).1

/-- Where the `shared_split` loop puts each member of each tie group: the
group that starts after the groups of `gsOne` receives rank
`s + (total size of gsOne)` for all its members, and the scores given by
`computeScore` on its own uma slice and oka share. -/
theorem processGroups_shared_char (uma : List ℚ) (okaPt ret : ℚ) (rm : PlayerKey → Option ℤ)
    (gsOne gsTwo : List (List (PlayerKey × ℚ))) (g : List (PlayerKey × ℚ))
    (x : PlayerKey × ℚ) (hx : x ∈ g) :
    ∀ (s : ℕ) (st : RS),
      (((gsOne ++ g :: gsTwo).flatten).map Prod.fst).Nodup →
      (processGroups uma okaPt ret TieRankMode.shared_split rm s (gsOne ++ g :: gsTwo) st).ranks x.1
          = ((s + (gsOne.map List.length).sum : ℕ) : ℤ) ∧
      (processGroups uma okaPt ret TieRankMode.shared_split rm s (gsOne ++ g :: gsTwo) st).scores x.1
          = (if g.length = 1 then
              computeScore ret x.2 (uma.getD (s + (gsOne.map List.length).sum - 1) 0)
                (if s + (gsOne.map List.length).sum = 1 then okaPt else 0)
            else
              computeScore ret x.2
                (((uma.drop (s + (gsOne.map List.length).sum - 1)).take g.length).sum / (g.length : ℚ))
                (if s + (gsOne.map List.length).sum = 1 then okaPt / (g.length : ℚ) else 0)) := by
  induction gsOne with
  | nil =>
    intro s st hnd
    simp only [List.nil_append] at hnd ⊢
    rw [processGroups]
    have hq := nodup_flatten_cons_head hnd x hx
    rw [processGroups_ranks_notMem _ _ _ _ _ _ _ hq, processGroups_scores_notMem _ _ _ _ _ _ _ hq]
    have hg := applyGroup_shared_char uma okaPt ret rm s g st (nodup_flatten_cons_group hnd) x hx
    simp only [List.map_nil, List.sum_nil, Nat.add_zero]
    exact hg
  | cons h t ih =>
    intro s st hnd
    simp only [List.cons_append] at hnd ⊢
    rw [processGroups]
    have ht := ih (s + h.length) (applyGroup uma okaPt ret TieRankMode.shared_split rm s h st)
      (nodup_flatten_cons_tail hnd)
    have harith : s + h.length + (t.map List.length).sum
        = s + ((h :: t).map List.length).sum := by
      simp only [List.map_cons, List.sum_cons]
      omega
    rw [harith] at ht
    exact ht

/-- The tobi stage never changes ranks. -/
theorem applyTobiPenalty_ranks (mode : TieRankMode) (tb : ℚ) (last : ℤ)
    (sorted : List (PlayerKey × ℚ)) (st : RS) :
    (applyTobiPenalty mode tb last sorted st).ranks = st.ranks := by
  cases mode with
  | shared_split =>
    rw [applyTobiPenalty]
    split <;> rfl
  | manual_order => rfl

theorem applyTobi_ranks (mode : TieRankMode) (tb : ℚ) (tp : Option PlayerKey) (last : ℤ)
    (sorted : List (PlayerKey × ℚ)) (st : RS) :
    (applyTobi mode tb tp last sorted st).ranks = st.ranks := by
  rw [applyTobi.eq_def]
  cases tp with
  | none => exact applyTobiPenalty_ranks _ _ _ _ _
  | some t =>
    dsimp only
    split
    · exact applyTobiPenalty_ranks _ _ _ _ _
    · exact applyTobiPenalty_ranks _ _ _ _ _

/-- The full function's ranks agree with the pre-tobi ranks. -/
theorem calculateRankAndScore_ranks_eq_base (points : Points) (uma : List ℚ)
    (tobiBonus : ℚ) (tobiPlayer : Option PlayerKey) (okaPt : ℚ) (mode : TieRankMode)
    (m : PlayerKey → Option ℤ) (active : List PlayerKey) (ret : ℚ)
    (hcomp : ¬ (active.filter fun p => (points p).isSome).length < active.length) :
    (calculateRankAndScore points uma tobiBonus tobiPlayer okaPt mode m active ret).ranks
      = (baseResult points uma okaPt mode m active ret).ranks := by
  rw [calculateRankAndScore, if_neg hcomp]
  dsimp only
  split
  · exact applyTobi_ranks _ _ _ _ _ _
  · rfl

/-! ### The exact score pipeline sums to zero -/

theorem foldl_setFun_notMem (v : PlayerKey × ℚ → ℚ) (l : List (PlayerKey × ℚ))
    (q : PlayerKey) (hq : ∀ x ∈ l, x.1 ≠ q) :
    ∀ f : PlayerKey → ℚ, (l.foldl (fun f x => setFun f x.1 (v x)) f) q = f q := by
  induction l with
  | nil => intro f; rfl
  | cons y ys ih =>
    intro f
    simp only [List.foldl_cons]
    rw [ih (fun x hx => hq x (List.mem_cons_of_mem y hx))]
    exact setFun_ne _ (fun h => hq y (List.mem_cons_self y ys) h.symm) _

theorem foldl_setFun_mem (v : PlayerKey × ℚ → ℚ) (l : List (PlayerKey × ℚ))
    (hnd : (l.map Prod.fst).Nodup) (x : PlayerKey × ℚ) (hx : x ∈ l) :
    ∀ f : PlayerKey → ℚ, (l.foldl (fun f x => setFun f x.1 (v x)) f) x.1 = v x := by
  induction l with
  | nil => cases hx
  | cons y ys ih =>
    intro f
    simp only [List.map_cons, List.nodup_cons] at hnd
    simp only [List.foldl_cons]
    rcases List.mem_cons.mp hx with rfl | hmem
    · rw [foldl_setFun_notMem v ys x.1
        (fun z hz h => hnd.1 (by rw [← h]; exact List.mem_map_of_mem Prod.fst hz))]
      exact setFun_self _ _ _
    · exact ih hnd.2 hmem _

theorem scoresExact_notMem (uma : List ℚ) (okaPt ret : ℚ)
    (gs : List (List (PlayerKey × ℚ))) (q : PlayerKey)
    (hq : ∀ x ∈ gs.flatten, x.1 ≠ q) :
    ∀ (s : ℕ) (f : PlayerKey → ℚ), scoresExact uma okaPt ret s gs f q = f q := by
  induction gs with
  | nil => intro s f; rfl
  | cons g gs ih =>
    intro s f
    rw [scoresExact]
    rw [ih (fun x hx => hq x (by rw [List.flatten_cons]; exact List.mem_append_right g hx))]
    exact foldl_setFun_notMem _ _ _
      (fun x hx => hq x (by rw [List.flatten_cons]; exact List.mem_append_left _ hx)) _

theorem sum_map_add_const (l : List (PlayerKey × ℚ)) (f : PlayerKey × ℚ → ℚ) (c : ℚ) :
    (l.map fun x => f x + c).sum = (l.map f).sum + l.length * c := by
  induction l with
  | nil => simp
  | cons y ys ih =>
    simp only [List.map_cons, List.sum_cons, ih, List.length_cons]
    push_cast
    ring

/-- The total of the exact scores over all groups: the point deltas, plus
the uma entries consumed so far, plus the oka once (given to the first
group when the whole run starts at rank one). -/
theorem scoresExact_sum (uma : List ℚ) (okaPt ret : ℚ)
    (gs : List (List (PlayerKey × ℚ))) (hne : ∀ g ∈ gs, g ≠ []) :
    ∀ (s : ℕ) (f : PlayerKey → ℚ), 1 ≤ s → ((gs.flatten.map Prod.fst).Nodup) →
    ((gs.flatten).map fun x => scoresExact uma okaPt ret s gs f x.1).sum
      = ((gs.flatten).map fun x => (x.2 - ret) / 1000).sum
        + ((uma.drop (s - 1)).take gs.flatten.length).sum
        + (if s = 1 ∧ gs ≠ [] then okaPt else 0) := by
  induction gs with
  | nil =>
    intro s f hs hnd
    simp
  | cons g gs ih =>
    intro s f hs hnd
    have hglen : g ≠ [] := hne g (List.mem_cons_self g gs)
    have hglen' : (0 : ℚ) < g.length := by
      have := List.length_pos.mpr hglen
      exact_mod_cast this
    rw [scoresExact]
    simp only [List.flatten_cons, List.map_append, List.sum_append]
    -- the value written for each member of the head group
    have hval : ∀ x ∈ g,
        scoresExact uma okaPt ret (s + g.length) gs
          (g.foldl (fun f x =>
            setFun f x.1 ((x.2 - ret) / 1000
              + ((uma.drop (s - 1)).take g.length).sum / (g.length : ℚ)
              + (if s = 1 then okaPt / (g.length : ℚ) else 0))) f) x.1
          = (x.2 - ret) / 1000
              + ((uma.drop (s - 1)).take g.length).sum / (g.length : ℚ)
              + (if s = 1 then okaPt / (g.length : ℚ) else 0) := by
      intro x hx
      rw [scoresExact_notMem _ _ _ _ _ (nodup_flatten_cons_head hnd x hx)]
      exact foldl_setFun_mem _ _ (nodup_flatten_cons_group hnd) x hx _
    rw [List.map_congr_left hval]
    -- the untouched tail is handled by the induction hypothesis
    have htail := ih (fun g hg => hne g (List.mem_cons_of_mem _ hg)) (s + g.length)
      (g.foldl (fun f x =>
        setFun f x.1 ((x.2 - ret) / 1000
          + ((uma.drop (s - 1)).take g.length).sum / (g.length : ℚ)
          + (if s = 1 then okaPt / (g.length : ℚ) else 0))) f)
      (by omega) (nodup_flatten_cons_tail hnd)
    rw [htail]
    have hsplit : (g.map fun x => (x.2 - ret) / 1000
          + ((uma.drop (s - 1)).take g.length).sum / (g.length : ℚ)
          + (if s = 1 then okaPt / (g.length : ℚ) else 0)).sum
        = (g.map fun x => (x.2 - ret) / 1000).sum
          + ((uma.drop (s - 1)).take g.length).sum
          + (if s = 1 then okaPt else 0) := by
      have h1 : (g.map fun x => (x.2 - ret) / 1000
            + ((uma.drop (s - 1)).take g.length).sum / (g.length : ℚ)
            + (if s = 1 then okaPt / (g.length : ℚ) else 0)).sum
          = (g.map fun x => (x.2 - ret) / 1000).sum
            + g.length * (((uma.drop (s - 1)).take g.length).sum / (g.length : ℚ)
              + (if s = 1 then okaPt / (g.length : ℚ) else 0)) := by
        have := sum_map_add_const g (fun x => (x.2 - ret) / 1000)
          (((uma.drop (s - 1)).take g.length).sum / (g.length : ℚ)
            + (if s = 1 then okaPt / (g.length : ℚ) else 0))
        rw [← this]
        congr 1
        apply List.map_congr_left
        intro x _
        ring
      rw [h1]
      by_cases h2 : s = 1
      · rw [if_pos h2, if_pos h2]
        field_simp
        ring
      · rw [if_neg h2, if_neg h2]
        field_simp
    rw [hsplit]
    -- merge the two uma slices
    have hslice : ((uma.drop (s - 1)).take g.length).sum
          + ((uma.drop (s + g.length - 1)).take gs.flatten.length).sum
        = ((uma.drop (s - 1)).take (g.length + gs.flatten.length)).sum := by
      have harg : s - 1 + g.length = s + g.length - 1 := by omega
      rw [List.take_add, List.sum_append, List.drop_drop, harg]
    have hlen : (g ++ gs.flatten).length = g.length + gs.flatten.length := List.length_append _ _
    have hoka : (if s + g.length = 1 ∧ gs ≠ [] then okaPt else 0) = 0 := by
      rw [if_neg]
      rintro ⟨h1, _⟩
      have : 1 ≤ g.length := List.length_pos.mpr hglen
      omega
    rw [hoka, hlen]
    rw [← hslice]
    by_cases h2 : s = 1
    · rw [if_pos h2, if_pos ⟨h2, List.cons_ne_nil g gs⟩]
      ring
    · rw [if_neg h2, if_neg (fun h => h2 h.1)]
      ring

/-! ### Every emitted score is a multiple of one tenth -/

theorem applyGroup_scores_tenth (uma : List ℚ) (okaPt ret : ℚ) (mode : TieRankMode)
    (rm : PlayerKey → Option ℤ) (s : ℕ) (g : List (PlayerKey × ℚ)) (st : RS)
    (hst : ∀ q, Tenth (st.scores q)) :
    ∀ q, Tenth ((applyGroup uma okaPt ret mode rm s g st).scores q) := by
  intro q
  unfold applyGroup
  split
  · rcases writeAll_scores_cases _ _ _ _ q st with h | ⟨x, _, h⟩
    · rw [h]; exact hst q
    · rw [h]; exact tenth_computeScore _ _ _ _
  split
  · rcases writeAll_scores_cases _ _ _ _ q st with h | ⟨x, _, h⟩
    · rw [h]; exact hst q
    · rw [h]; exact tenth_computeScore _ _ _ _
  split
  · rcases writeAll_scores_cases _ _ _ _ q st with h | ⟨x, _, h⟩
    · rw [h]; exact hst q
    · rw [h]; exact tenth_computeScore _ _ _ _
  · rcases writeAll_scores_cases _ _ _ _ q st with h | ⟨x, _, h⟩
    · rw [h]; exact hst q
    · rw [h]; exact tenth_zero

theorem processGroups_scores_tenth (uma : List ℚ) (okaPt ret : ℚ) (mode : TieRankMode)
    (rm : PlayerKey → Option ℤ) (gs : List (List (PlayerKey × ℚ))) :
    ∀ (s : ℕ) (st : RS), (∀ q, Tenth (st.scores q)) →
      ∀ q, Tenth ((processGroups uma okaPt ret mode rm s gs st).scores q) := by
  induction gs with
  | nil => intro s st hst q; exact hst q
  | cons g gs ih =>
    intro s st hst q
    rw [processGroups]
    exact ih _ _ (applyGroup_scores_tenth _ _ _ _ _ _ _ _ hst) q

theorem foldl_penalty_list (pen : ℚ) (B : List PlayerKey) (hnd : B.Nodup) (q : PlayerKey) :
    ∀ sc : PlayerKey → ℚ,
      (B.foldl (fun sc k => setFun sc k (round10 (sc k - pen))) sc) q
        = if q ∈ B then round10 (sc q - pen) else sc q := by
  induction B with
  | nil => intro sc; simp
  | cons b bs ih =>
    intro sc
    simp only [List.nodup_cons] at hnd
    simp only [List.foldl_cons]
    rw [ih hnd.2]
    by_cases hq : q = b
    · subst hq
      rw [if_neg hnd.1, if_pos (List.mem_cons_self q bs), setFun_self]
    · rw [setFun_ne _ hq]
      by_cases hmem : q ∈ bs
      · rw [if_pos hmem, if_pos (List.mem_cons_of_mem b hmem)]
      · rw [if_neg hmem, if_neg (by
          intro h
          rcases List.mem_cons.mp h with h | h
          · exact hq h
          · exact hmem h)]

theorem foldl_penalty_manual (ranks : PlayerKey → ℤ) (last : ℤ) (tb : ℚ)
    (l : List (PlayerKey × ℚ)) (hnd : (l.map Prod.fst).Nodup) (q : PlayerKey) :
    ∀ sc : PlayerKey → ℚ,
      (l.foldl (fun sc x =>
        if ranks x.1 = last then setFun sc x.1 (round10 (sc x.1 - tb)) else sc) sc) q
      = if q ∈ l.map Prod.fst ∧ ranks q = last then round10 (sc q - tb) else sc q := by
  induction l with
  | nil => intro sc; simp
  | cons y ys ih =>
    intro sc
    simp only [List.map_cons, List.nodup_cons] at hnd
    simp only [List.foldl_cons]
    rw [ih hnd.2]
    by_cases hq : q = y.1
    · subst hq
      rw [if_neg (fun h => hnd.1 h.1)]
      by_cases hr : ranks y.1 = last
      · rw [if_pos hr, if_pos ⟨List.mem_cons_self _ _, hr⟩, setFun_self]
      · rw [if_neg hr, if_neg (fun h => hr h.2)]
    · have hmem : q ∈ (y.1 :: ys.map Prod.fst) ↔ q ∈ ys.map Prod.fst := by
        constructor
        · intro h
          rcases List.mem_cons.mp h with h | h
          · exact absurd h hq
          · exact h
        · exact List.mem_cons_of_mem _
      by_cases hr : ranks y.1 = last
      · rw [if_pos hr, setFun_ne _ hq]
        by_cases hc : q ∈ ys.map Prod.fst ∧ ranks q = last
        · rw [if_pos hc, if_pos ⟨hmem.mpr hc.1, hc.2⟩]
        · rw [if_neg hc, if_neg (fun h => hc ⟨hmem.mp h.1, h.2⟩)]
      · rw [if_neg hr]
        by_cases hc : q ∈ ys.map Prod.fst ∧ ranks q = last
        · rw [if_pos hc, if_pos ⟨hmem.mpr hc.1, hc.2⟩]
        · rw [if_neg hc, if_neg (fun h => hc ⟨hmem.mp h.1, h.2⟩)]

/-- The keys the `shared_split` tobi penalty hits. -/
def bottomKeys (sorted : List (PlayerKey × ℚ)) (st : RS) : List PlayerKey :=
  (sorted.filter fun x =>
    decide (x.2 = listMin (sorted.map Prod.snd)) && decide (0 < st.ranks x.1)).map Prod.fst

theorem bottomKeys_nodup (sorted : List (PlayerKey × ℚ)) (st : RS)
    (hnd : (sorted.map Prod.fst).Nodup) : (bottomKeys sorted st).Nodup := by
  have hsub : (bottomKeys sorted st).Sublist (sorted.map Prod.fst) :=
    (List.filter_sublist sorted).map Prod.fst
  exact hnd.sublist hsub

theorem applyTobiPenalty_shared_scores (tb : ℚ) (last : ℤ)
    (sorted : List (PlayerKey × ℚ)) (st : RS) (hnd : (sorted.map Prod.fst).Nodup)
    (q : PlayerKey) :
    (applyTobiPenalty TieRankMode.shared_split tb last sorted st).scores q
      = if q ∈ bottomKeys sorted st
        then round10 (st.scores q - tb / ((bottomKeys sorted st).length : ℚ))
        else st.scores q := by
  rw [applyTobiPenalty]
  dsimp only
  rw [show (sorted.filter fun x =>
      decide (x.2 = listMin (sorted.map Prod.snd)) && decide (0 < st.ranks x.1)).map Prod.fst
    = bottomKeys sorted st from rfl]
  split
  · exact foldl_penalty_list _ _ (bottomKeys_nodup sorted st hnd) q st.scores
  · have hq : q ∉ bottomKeys sorted st := by
      intro hq
      rename_i hlen
      exact hlen (List.length_pos.mpr (List.ne_nil_of_mem hq))
    rw [if_neg hq]

theorem applyTobiPenalty_manual_scores (tb : ℚ) (last : ℤ)
    (sorted : List (PlayerKey × ℚ)) (st : RS) (hnd : (sorted.map Prod.fst).Nodup)
    (q : PlayerKey) :
    (applyTobiPenalty TieRankMode.manual_order tb last sorted st).scores q
      = if q ∈ sorted.map Prod.fst ∧ st.ranks q = last
        then round10 (st.scores q - tb)
        else st.scores q := by
  rw [applyTobiPenalty]
  exact foldl_penalty_manual st.ranks last tb sorted hnd q st.scores

theorem foldl_penalty_list_tenth (pen : ℚ) (B : List PlayerKey) :
    ∀ sc : PlayerKey → ℚ, (∀ q, Tenth (sc q)) →
      ∀ q, Tenth ((B.foldl (fun sc k => setFun sc k (round10 (sc k - pen))) sc) q) := by
  induction B with
  | nil => intro sc hsc q; exact hsc q
  | cons b bs ih =>
    intro sc hsc q
    simp only [List.foldl_cons]
    refine ih _ (fun r => ?_) q
    by_cases hr : r = b
    · subst hr
      rw [setFun_self]
      exact tenth_round10 _
    · rw [setFun_ne _ hr]
      exact hsc r

theorem foldl_penalty_manual_tenth (ranks : PlayerKey → ℤ) (last : ℤ) (tb : ℚ)
    (l : List (PlayerKey × ℚ)) :
    ∀ sc : PlayerKey → ℚ, (∀ q, Tenth (sc q)) →
      ∀ q, Tenth ((l.foldl (fun sc x =>
        if ranks x.1 = last then setFun sc x.1 (round10 (sc x.1 - tb)) else sc) sc) q) := by
  induction l with
  | nil => intro sc hsc q; exact hsc q
  | cons y ys ih =>
    intro sc hsc q
    simp only [List.foldl_cons]
    refine ih _ (fun r => ?_) q
    by_cases hy : ranks y.1 = last
    · rw [if_pos hy]
      by_cases hr : r = y.1
      · subst hr
        rw [setFun_self]
        exact tenth_round10 _
      · rw [setFun_ne _ hr]
        exact hsc r
    · rw [if_neg hy]
      exact hsc r

theorem applyTobiPenalty_scores_tenth (mode : TieRankMode) (tb : ℚ) (last : ℤ)
    (sorted : List (PlayerKey × ℚ)) (st : RS) (hst : ∀ q, Tenth (st.scores q)) :
    ∀ q, Tenth ((applyTobiPenalty mode tb last sorted st).scores q) := by
  intro q
  cases mode with
  | shared_split =>
    rw [applyTobiPenalty]
    dsimp only
    split
    · exact foldl_penalty_list_tenth _ _ st.scores hst q
    · exact hst q
  | manual_order =>
    rw [applyTobiPenalty]
    exact foldl_penalty_manual_tenth st.ranks last tb sorted st.scores hst q

/-- The credit stage of the tobi adjustment, pointwise. -/
theorem applyTobi_some_scores (mode : TieRankMode) (tb : ℚ) (t : PlayerKey) (last : ℤ)
    (sorted : List (PlayerKey × ℚ)) (st : RS) (q : PlayerKey) :
    (applyTobi mode tb (some t) last sorted st).scores q
      = if 0 < (applyTobiPenalty mode tb last sorted st).ranks t ∧ q = t
        then round10 ((applyTobiPenalty mode tb last sorted st).scores t + tb)
        else (applyTobiPenalty mode tb last sorted st).scores q := by
  rw [applyTobi.eq_def]
  dsimp only
  split
  · rename_i h
    by_cases hq : q = t
    · subst hq
      rw [if_pos ⟨h, rfl⟩]
      exact setFun_self _ _ _
    · rw [if_neg (fun hc => hq hc.2)]
      exact setFun_ne _ hq _
  · rename_i h
    rw [if_neg (fun hc => h hc.1)]

/-! ### The completeness guard -/

theorem length_filter_lt_of_mem_not {α : Type} (l : List α) (pred : α → Bool)
    (a : α) (ha : a ∈ l) (hpa : pred a = false) :
    (l.filter pred).length < l.length := by
  induction l with
  | nil => cases ha
  | cons y ys ih =>
    rcases List.mem_cons.mp ha with rfl | hmem
    · rw [List.filter_cons, hpa]
      simp only [List.length_cons]
      exact Nat.lt_succ_of_le (List.length_filter_le pred ys)
    · rw [List.filter_cons]
      by_cases hy : pred y
      · rw [if_pos hy]
        simp only [List.length_cons]
        exact Nat.succ_lt_succ (ih hmem)
      · rw [if_neg hy]
        exact Nat.lt_succ_of_lt (ih hmem)

theorem not_length_filter_lt_of_all (points : Points) (active : List PlayerKey)
    (h : ∀ p ∈ active, (points p).isSome) :
    ¬ (active.filter fun p => (points p).isSome).length < active.length := by
  rw [List.filter_eq_self.mpr (fun a ha => h a ha)]
  exact lt_irrefl _

/-- Unfolding `calculateRankAndScore` on a complete hand. -/
theorem calculateRankAndScore_complete (points : Points) (uma : List ℚ) (tobiBonus : ℚ)
    (tobiPlayer : Option PlayerKey) (okaPt : ℚ) (mode : TieRankMode)
    (m : PlayerKey → Option ℤ) (active : List PlayerKey) (ret : ℚ)
    (hcomp : ∀ p ∈ active, (points p).isSome) :
    calculateRankAndScore points uma tobiBonus tobiPlayer okaPt mode m active ret
      = if tobiGate (sortedPlayers points active) tobiPlayer tobiBonus then
          applyTobi mode tobiBonus tobiPlayer (active.length : ℤ)
            (sortedPlayers points active)
            (baseResult points uma okaPt mode m active ret)
        else baseResult points uma okaPt mode m active ret := by
  rw [calculateRankAndScore, if_neg (not_length_filter_lt_of_all points active hcomp)]

/-! ### Claim theorems -/

/-- C8 (confirmed): a hand in which at least one active slot's points are
unset yields rank 0 and score 0 for every slot, whatever the rule
configuration, tobi designation and manual tie ranks. -/
theorem incomplete_hand_all_zero (points : Points) (uma : List ℚ) (tobiBonus : ℚ)
    (tobiPlayer : Option PlayerKey) (okaPt : ℚ) (mode : TieRankMode)
    (m : PlayerKey → Option ℤ) (active : List PlayerKey) (ret : ℚ)
    (h : ∃ p ∈ active, points p = none) :
    ∀ q, (calculateRankAndScore points uma tobiBonus tobiPlayer okaPt mode m active ret).ranks q = 0
      ∧ (calculateRankAndScore points uma tobiBonus tobiPlayer okaPt mode m active ret).scores q = 0 := by
  obtain ⟨p, hp, hnone⟩ := h
  have hlt : (active.filter fun p => (points p).isSome).length < active.length :=
    length_filter_lt_of_mem_not active _ p hp (by rw [hnone]; rfl)
  intro q
  rw [calculateRankAndScore, if_pos hlt]
  exact ⟨rfl, rfl⟩

/-- C8 witness: the all-unset four-player hand. -/
theorem incomplete_hand_all_zero_witness :
    (calculateRankAndScore (fun _ => none) [30, 10, -10, -30] 10 (some PlayerKey.A) 20
      TieRankMode.shared_split (fun _ => none)
      [PlayerKey.A, PlayerKey.B, PlayerKey.C, PlayerKey.D] 30000).ranks PlayerKey.B = 0
    ∧ (calculateRankAndScore (fun _ => none) [30, 10, -10, -30] 10 (some PlayerKey.A) 20
      TieRankMode.shared_split (fun _ => none)
      [PlayerKey.A, PlayerKey.B, PlayerKey.C, PlayerKey.D] 30000).scores PlayerKey.B = 0 :=
  incomplete_hand_all_zero (fun _ => none) [30, 10, -10, -30] 10 (some PlayerKey.A) 20
    TieRankMode.shared_split (fun _ => none)
    [PlayerKey.A, PlayerKey.B, PlayerKey.C, PlayerKey.D] 30000
    ⟨PlayerKey.A, List.mem_cons_self _ _, rfl⟩ PlayerKey.B

/-- C9 (confirmed): every score emitted by `calculateRankAndScore` is an
integer multiple of one tenth, because every accumulation step is rounded
to one decimal place (and untouched slots hold 0). -/
theorem scores_are_tenths (points : Points) (uma : List ℚ) (tobiBonus : ℚ)
    (tobiPlayer : Option PlayerKey) (okaPt : ℚ) (mode : TieRankMode)
    (m : PlayerKey → Option ℤ) (active : List PlayerKey) (ret : ℚ) :
    ∀ q, ∃ z : ℤ,
      (calculateRankAndScore points uma tobiBonus tobiPlayer okaPt mode m active ret).scores q
        = (z : ℚ) / 10 := by
  have hbase : ∀ q, Tenth ((baseResult points uma okaPt mode m active ret).scores q) :=
    processGroups_scores_tenth _ _ _ _ _ _ _ _ (fun q => tenth_zero)
  intro q
  rw [calculateRankAndScore]
  split
  · exact ⟨0, by show (0 : ℚ) = ((0 : ℤ) : ℚ) / 10; norm_num⟩
  dsimp only
  split
  · cases tobiPlayer with
    | none =>
      exact applyTobiPenalty_scores_tenth _ _ _ _ _ hbase q
    | some t =>
      rw [applyTobi_some_scores]
      split
      · exact tenth_round10 _
      · exact applyTobiPenalty_scores_tenth _ _ _ _ _ hbase q
  · exact hbase q

/-! ### `checkTotal` -/

theorem checkTotal_any_iff (p : Points) (a : List PlayerKey) :
    ((a.map p).any fun v => v.isNone) = true ↔ ∃ k ∈ a, p k = none := by
  rw [List.any_eq_true]
  constructor
  · rintro ⟨v, hv, hnone⟩
    rcases List.mem_map.mp hv with ⟨k, hk, rfl⟩
    exact ⟨k, hk, Option.isNone_iff_eq_none.mp hnone⟩
  · rintro ⟨k, hk, hnone⟩
    exact ⟨p k, List.mem_map_of_mem p hk, by rw [hnone]; rfl⟩

theorem checkTotal_eq_none_iff (p : Points) (a : List PlayerKey) (e : ℚ) (mo : GameMode) :
    checkTotal p a e mo = none ↔ ∃ k ∈ a, p k = none := by
  rw [checkTotal]
  by_cases hc : ((a.map p).any fun v => v.isNone) = true
  · rw [if_pos hc]
    exact iff_of_true rfl ((checkTotal_any_iff p a).mp hc)
  · rw [if_neg hc]
    refine iff_of_false ?_ (fun h => hc ((checkTotal_any_iff p a).mpr h))
    cases mo <;> dsimp only <;> split <;> split <;> simp

/-- C3 (confirmed): `checkTotal` returns the unknown result exactly when an
active slot is unset; on complete hands three-player mode accepts exactly
the supplied expected total and four-player mode accepts exactly the two
legacy constants 100000 and 120000, answering NG otherwise. -/
theorem checkTotal_spec (p : Points) (a : List PlayerKey) (e : ℚ) (mo : GameMode) :
    (checkTotal p a e mo = none ↔ ∃ k ∈ a, p k = none)
    ∧ ((∀ k ∈ a, p k ≠ none) → mo = GameMode.sanma →
        ((checkTotal p a e mo = some CheckResult.OK ↔ ((a.map p).filterMap id).sum = e)
          ∧ (checkTotal p a e mo = some CheckResult.NG ↔ ((a.map p).filterMap id).sum ≠ e)))
    ∧ ((∀ k ∈ a, p k ≠ none) → mo = GameMode.yonma →
        ((checkTotal p a e mo = some CheckResult.OK ↔
            (((a.map p).filterMap id).sum = 100000 ∨ ((a.map p).filterMap id).sum = 120000))
          ∧ (checkTotal p a e mo = some CheckResult.NG ↔
            ¬ (((a.map p).filterMap id).sum = 100000 ∨ ((a.map p).filterMap id).sum = 120000)))) := by
  refine ⟨checkTotal_eq_none_iff p a e mo, ?_, ?_⟩
  · intro hall hmo
    subst hmo
    have hc : ¬ ((a.map p).any fun v => v.isNone) = true := fun h => by
      obtain ⟨k, hk, hn⟩ := (checkTotal_any_iff p a).mp h
      exact hall k hk hn
    rw [checkTotal, if_neg hc]
    dsimp only
    rw [if_pos rfl]
    constructor
    · split
      · rename_i h
        exact iff_of_true rfl h
      · rename_i h
        exact iff_of_false (by simp) h
    · split
      · rename_i h
        exact iff_of_false (by simp) (fun hne => hne h)
      · rename_i h
        exact iff_of_true rfl h
  · intro hall hmo
    subst hmo
    have hc : ¬ ((a.map p).any fun v => v.isNone) = true := fun h => by
      obtain ⟨k, hk, hn⟩ := (checkTotal_any_iff p a).mp h
      exact hall k hk hn
    rw [checkTotal, if_neg hc]
    dsimp only
    rw [if_neg (by simp : ¬ GameMode.yonma = GameMode.sanma)]
    constructor
    · split
      · rename_i h
        exact iff_of_true rfl h
      · rename_i h
        exact iff_of_false (by simp) h
    · split
      · rename_i h
        exact iff_of_false (by simp) (fun hne => hne h)
      · rename_i h
        exact iff_of_true rfl h

/-! ### Concrete scenario inputs -/

attribute [local semireducible] Rat.add Rat.mul Rat.inv Rat.sub

/-- The spec's standard four-player scenario points. -/
def scenarioPoints : Points := fun p => match p with
  | PlayerKey.A => some 35000
  | PlayerKey.B => some 28000
  | PlayerKey.C => some 22000
  | PlayerKey.D => some 15000

/-- The four-player `10-30` uma preset. -/
def umaTenThirty : List ℚ := [30, 10, -10, -30]

/-- The four active seats. -/
def fourPlayers : List PlayerKey :=
  [PlayerKey.A, PlayerKey.B, PlayerKey.C, PlayerKey.D]

/-- The result of the spec's standard scenario: `10-30` uma, oka 20
(`startPoints` 25000, `returnPoints` 30000), no tobi designation,
`shared_split`. -/
def scenarioResult : RS :=
  calculateRankAndScore scenarioPoints umaTenThirty 10 none 20
    TieRankMode.shared_split (fun _ => none) fourPlayers 30000

/-- C3 witness: a complete three-player hand summing to the expected total,
obtained through `checkTotal_spec`. -/
theorem checkTotal_spec_witness :
    checkTotal (fun _ => some 35000) [PlayerKey.A, PlayerKey.B, PlayerKey.C] 105000
      GameMode.sanma = some CheckResult.OK :=
  ((checkTotal_spec (fun _ => some 35000) [PlayerKey.A, PlayerKey.B, PlayerKey.C] 105000
      GameMode.sanma).2.1 (by decide) rfl).1.mpr (by decide)

/-- C6 (confirmed): the spec's standard scenario gives ranks A=1, B=2, C=3,
D=4 and scores 55.0, 8.0, −18.0, −45.0, each equal to `computeScore` on the
player's points, rank uma and oka share (oka only at rank 1). -/
theorem scenario_four_player :
    scenarioResult.ranks PlayerKey.A = 1 ∧ scenarioResult.ranks PlayerKey.B = 2
    ∧ scenarioResult.ranks PlayerKey.C = 3 ∧ scenarioResult.ranks PlayerKey.D = 4
    ∧ scenarioResult.scores PlayerKey.A = 55 ∧ scenarioResult.scores PlayerKey.B = 8
    ∧ scenarioResult.scores PlayerKey.C = -18 ∧ scenarioResult.scores PlayerKey.D = -45
    ∧ scenarioResult.scores PlayerKey.A = computeScore 30000 35000 30 20
    ∧ scenarioResult.scores PlayerKey.B = computeScore 30000 28000 10 0
    ∧ scenarioResult.scores PlayerKey.C = computeScore 30000 22000 (-10) 0
    ∧ scenarioResult.scores PlayerKey.D = computeScore 30000 15000 (-30) 0 := by
  decide

/-! ### Tobi gating -/

theorem tobiGate_none_zero (sorted : List (PlayerKey × ℚ)) :
    tobiGate sorted none 0 = false := by
  simp [tobiGate]

theorem calculateRankAndScore_gate_false (points : Points) (uma : List ℚ) (okaPt : ℚ)
    (mode : TieRankMode) (m : PlayerKey → Option ℤ) (active : List PlayerKey) (ret : ℚ)
    (tb : ℚ) (tp : Option PlayerKey)
    (hg : tobiGate (sortedPlayers points active) tp tb = false) :
    calculateRankAndScore points uma tb tp okaPt mode m active ret
      = calculateRankAndScore points uma 0 none okaPt mode m active ret := by
  rw [calculateRankAndScore, calculateRankAndScore]
  split
  · rfl
  dsimp only
  rw [if_neg (fun h => Bool.false_ne_true (hg ▸ h)),
    if_neg (fun h => Bool.false_ne_true ((tobiGate_none_zero (sortedPlayers points active)) ▸ h))]

theorem sorted_any_neg_false (points : Points) (active : List PlayerKey)
    (h : ∀ p ∈ active, 0 ≤ (points p).getD 0) :
    ((sortedPlayers points active).any fun x => decide (x.2 < 0)) = false := by
  rw [List.any_eq_false]
  intro x hx
  have hmem := (sortedPlayers_perm points active).mem_iff.mp hx
  obtain ⟨ha, hsome⟩ := (mem_filledList points active x).mp hmem
  have hle := h x.1 ha
  rw [hsome] at hle
  simp only [Option.getD_some] at hle
  simp only [decide_eq_true_eq]
  exact not_lt.mpr hle

theorem tobiGate_false_of_nonneg (points : Points) (active : List PlayerKey)
    (tp : Option PlayerKey) (tb : ℚ) (h : ∀ p ∈ active, 0 ≤ (points p).getD 0) :
    tobiGate (sortedPlayers points active) tp tb = false := by
  rw [tobiGate, sorted_any_neg_false points active h]
  rw [Bool.false_and, Bool.false_and]

/-- C7 (confirmed): if no active player's points are negative the tobi
adjustment never fires — the result is the same for every `tobiBonus` and
`tobiPlayer`; and in general whenever the gate
`hasTobi && tobiPlayer && tobiBonus > 0` is off the result equals the one
computed with no tobi inputs at all. -/
theorem tobi_gating (points : Points) (uma : List ℚ) (okaPt : ℚ) (mode : TieRankMode)
    (m : PlayerKey → Option ℤ) (active : List PlayerKey) (ret : ℚ)
    (tb tb2 : ℚ) (tp tp2 : Option PlayerKey) :
    ((∀ p ∈ active, 0 ≤ (points p).getD 0) →
      calculateRankAndScore points uma tb tp okaPt mode m active ret
        = calculateRankAndScore points uma tb2 tp2 okaPt mode m active ret)
    ∧ (tobiGate (sortedPlayers points active) tp tb = false →
      calculateRankAndScore points uma tb tp okaPt mode m active ret
        = calculateRankAndScore points uma 0 none okaPt mode m active ret) := by
  constructor
  · intro h
    rw [calculateRankAndScore_gate_false points uma okaPt mode m active ret tb tp
        (tobiGate_false_of_nonneg points active tp tb h),
      calculateRankAndScore_gate_false points uma okaPt mode m active ret tb2 tp2
        (tobiGate_false_of_nonneg points active tp2 tb2 h)]
  · exact calculateRankAndScore_gate_false points uma okaPt mode m active ret tb tp

/-- C7 witness: the standard scenario with an arbitrary tobi configuration
equals the run with tobi bonus 99 and a designated player, since no points
are negative. -/
theorem tobi_gating_witness :
    calculateRankAndScore scenarioPoints umaTenThirty 99 (some PlayerKey.A) 20
        TieRankMode.shared_split (fun _ => none) fourPlayers 30000
      = calculateRankAndScore scenarioPoints umaTenThirty 0 none 20
        TieRankMode.shared_split (fun _ => none) fourPlayers 30000 :=
  (tobi_gating scenarioPoints umaTenThirty 20 TieRankMode.shared_split (fun _ => none)
    fourPlayers 30000 99 0 (some PlayerKey.A) none).1 (by decide)

/-- C10 (confirmed): when the tobi adjustment fires, the designated player
is credited the bonus only if their resolved rank is positive; with rank 0
(an invalid manual tie group) the result is exactly the penalty stage —
no credit is added to anyone — while a positive rank adds one rounded
credit to the designated player and leaves everyone else at the penalty
stage. -/
theorem tobi_credit_requires_rank (points : Points) (uma : List ℚ) (tb okaPt : ℚ)
    (mode : TieRankMode) (m : PlayerKey → Option ℤ) (active : List PlayerKey) (ret : ℚ)
    (t : PlayerKey) (hcomp : ∀ p ∈ active, (points p).isSome)
    (hgate : tobiGate (sortedPlayers points active) (some t) tb = true) :
    ((calculateRankAndScore points uma tb (some t) okaPt mode m active ret).ranks t = 0 →
      ∀ q, (calculateRankAndScore points uma tb (some t) okaPt mode m active ret).scores q
        = (applyTobiPenalty mode tb (active.length : ℤ) (sortedPlayers points active)
            (baseResult points uma okaPt mode m active ret)).scores q)
    ∧ (0 < (calculateRankAndScore points uma tb (some t) okaPt mode m active ret).ranks t →
      (calculateRankAndScore points uma tb (some t) okaPt mode m active ret).scores t
        = round10 ((applyTobiPenalty mode tb (active.length : ℤ) (sortedPlayers points active)
            (baseResult points uma okaPt mode m active ret)).scores t + tb)
      ∧ ∀ q, q ≠ t →
        (calculateRankAndScore points uma tb (some t) okaPt mode m active ret).scores q
          = (applyTobiPenalty mode tb (active.length : ℤ) (sortedPlayers points active)
              (baseResult points uma okaPt mode m active ret)).scores q) := by
  have hc := calculateRankAndScore_complete points uma tb (some t) okaPt mode m active ret hcomp
  rw [if_pos hgate] at hc
  have hranks : (calculateRankAndScore points uma tb (some t) okaPt mode m active ret).ranks
      = (baseResult points uma okaPt mode m active ret).ranks := by
    rw [hc]
    exact applyTobi_ranks _ _ _ _ _ _
  have hpranks : (applyTobiPenalty mode tb (active.length : ℤ) (sortedPlayers points active)
      (baseResult points uma okaPt mode m active ret)).ranks
        = (baseResult points uma okaPt mode m active ret).ranks :=
    applyTobiPenalty_ranks _ _ _ _ _
  constructor
  · intro h0 q
    rw [hranks] at h0
    rw [hc, applyTobi_some_scores]
    rw [if_neg]
    rintro ⟨hpos, _⟩
    rw [hpranks, h0] at hpos
    exact lt_irrefl 0 hpos
  · intro hpos
    rw [hranks] at hpos
    constructor
    · rw [hc, applyTobi_some_scores, if_pos ⟨by rw [hpranks]; exact hpos, rfl⟩]
    · intro q hq
      rw [hc, applyTobi_some_scores, if_neg (fun h => hq h.2)]

/-- Points for the C10 witness: two players bust and tie at the bottom. -/
def tobiZeroRankPoints : Points := fun p => match p with
  | PlayerKey.A => some (-1000)
  | PlayerKey.B => some (-1000)
  | PlayerKey.C => some 30000
  | PlayerKey.D => some 71000

/-- Manual tie ranks for the C10 witness: both tied players claim rank 3,
so their group is invalid and resolves to rank 0. -/
def collidingManualRanks : PlayerKey → Option ℤ := fun p => match p with
  | PlayerKey.A => some 3
  | PlayerKey.B => some 3
  | _ => none

/-- C10 witness: the designated tobi player sits in an invalid manual tie
group (rank 0), so their score stays at the penalty stage. -/
theorem tobi_credit_requires_rank_witness :
    (calculateRankAndScore tobiZeroRankPoints umaTenThirty 10 (some PlayerKey.A) 20
      TieRankMode.manual_order collidingManualRanks fourPlayers 30000).scores PlayerKey.A
    = (applyTobiPenalty TieRankMode.manual_order 10 ((fourPlayers).length : ℤ)
        (sortedPlayers tobiZeroRankPoints fourPlayers)
        (baseResult tobiZeroRankPoints umaTenThirty 20 TieRankMode.manual_order
          collidingManualRanks fourPlayers 30000)).scores PlayerKey.A :=
  (tobi_credit_requires_rank tobiZeroRankPoints umaTenThirty 10 20
    TieRankMode.manual_order collidingManualRanks fourPlayers 30000 PlayerKey.A
    (by decide) (by decide)).1 (by decide) PlayerKey.A

/-! ### The zero-sum property of `shared_split` scoring -/

theorem sum_map_sub_div (l : List (PlayerKey × ℚ)) (c d : ℚ) :
    (l.map fun x => (x.2 - c) / d).sum = ((l.map Prod.snd).sum - l.length * c) / d := by
  induction l with
  | nil => simp
  | cons y ys ih =>
    simp only [List.map_cons, List.sum_cons, ih, List.length_cons]
    push_cast
    ring

/-- C1 (amended): under `shared_split` with the tobi gate off, points
summing to `playerCount × startPoints`, a uma table of exactly
`playerCount` entries summing to zero, and the oka derived as
`(returnPoints − startPoints) × playerCount / 1000`, the sum of all active
players' scores is 0 — the oka is redistributed inside the hand, it is not
added on top — provided each emitted (rounded) score coincides with its
exact unrounded value. -/
theorem shared_split_score_sum (points : Points) (uma : List ℚ) (tb : ℚ)
    (tp : Option PlayerKey) (okaPt : ℚ) (m : PlayerKey → Option ℤ)
    (active : List PlayerKey) (start ret : ℚ)
    (hnd : active.Nodup)
    (hcomp : ∀ p ∈ active, (points p).isSome)
    (hgate : tobiGate (sortedPlayers points active) tp tb = false)
    (hsum : (active.map fun p => (points p).getD 0).sum = active.length * start)
    (hulen : uma.length = active.length)
    (husum : uma.sum = 0)
    (hoka : okaPt = (ret - start) * active.length / 1000)
    (hexact : ∀ p ∈ active,
      (calculateRankAndScore points uma tb tp okaPt TieRankMode.shared_split m active ret).scores p
        = calculateScoresExact points uma okaPt active ret p) :
    (active.map
      (calculateRankAndScore points uma tb tp okaPt TieRankMode.shared_split m active ret).scores).sum
      = 0 := by
  by_cases hae : active = []
  · subst hae
    rfl
  rw [List.map_congr_left hexact]
  have hlt := not_length_filter_lt_of_all points active hcomp
  have hexdef : ∀ p, calculateScoresExact points uma okaPt active ret p
      = scoresExact uma okaPt ret 1 (groupRuns (sortedPlayers points active)) (fun _ => 0) p := by
    intro p
    rw [calculateScoresExact, if_neg hlt]
  have hstep : active.map (calculateScoresExact points uma okaPt active ret)
      = active.map
        (scoresExact uma okaPt ret 1 (groupRuns (sortedPlayers points active)) (fun _ => 0)) :=
    List.map_congr_left (fun p _ => hexdef p)
  rw [hstep]
  -- move the sum from seats to the sorted list
  have hperm : ((sortedPlayers points active).map Prod.fst).Perm active :=
    sortedPlayers_keys_perm points active hcomp
  have hmapperm :
      (active.map (scoresExact uma okaPt ret 1 (groupRuns (sortedPlayers points active))
        (fun _ => 0))).Perm
      (((sortedPlayers points active).map Prod.fst).map
        (scoresExact uma okaPt ret 1 (groupRuns (sortedPlayers points active)) (fun _ => 0))) :=
    (hperm.map _).symm
  rw [hmapperm.sum_eq, List.map_map]
  have hflat := groupRuns_flatten (sortedPlayers points active)
  have hndkeys : (((groupRuns (sortedPlayers points active)).flatten).map Prod.fst).Nodup := by
    rw [hflat]
    exact sortedPlayers_keys_nodup points active hcomp hnd
  have hne := groupRuns_ne_nil (sortedPlayers points active)
  have hmain := scoresExact_sum uma okaPt ret (groupRuns (sortedPlayers points active))
    hne 1 (fun _ => 0) le_rfl hndkeys
  rw [hflat] at hmain
  have hcomp2 :
      ((sortedPlayers points active).map
        ((scoresExact uma okaPt ret 1 (groupRuns (sortedPlayers points active)) fun _ => 0)
          ∘ Prod.fst))
      = (sortedPlayers points active).map
        (fun x => scoresExact uma okaPt ret 1 (groupRuns (sortedPlayers points active))
          (fun _ => 0) x.1) := rfl
  rw [hcomp2, hmain]
  -- evaluate the three summands
  have hslen : (sortedPlayers points active).length = active.length := by
    rw [(sortedPlayers_perm points active).length_eq, filledList_length points active hcomp]
  have hsnd : ((sortedPlayers points active).map Prod.snd).sum
      = (active.map fun p => (points p).getD 0).sum := by
    have h1 := ((sortedPlayers_perm points active).map Prod.snd).sum_eq
    rw [h1, filledList_eq_map points active hcomp, List.map_map]
    rfl
  rw [sum_map_sub_div, hsnd, hsum, hslen]
  have huma : ((uma.drop (1 - 1)).take active.length).sum = 0 := by
    rw [← hulen]
    rw [show (1 : ℕ) - 1 = 0 from rfl, List.drop_zero, List.take_length]
    exact husum
  rw [huma]
  have hgs : groupRuns (sortedPlayers points active) ≠ [] := by
    intro h
    have : (sortedPlayers points active) = [] := by
      rw [← hflat, h]
      rfl
    have h2 : active.length = 0 := by
      rw [← hslen, this]
      rfl
    exact hae (List.length_eq_zero.mp h2)
  rw [if_pos ⟨rfl, hgs⟩, hoka]
  field_simp
  ring

/-- C1 counterexample: in the spec's own standard scenario the claim's
hypotheses hold (points sum to `4 × 25000`, the uma table sums to zero, no
tobi adjustment fires, the oka amount is 20) yet the scores sum to 0, not
to the oka amount. -/
theorem shared_split_score_sum_counterexample :
    (fourPlayers.map fun p => (scenarioPoints p).getD 0).sum = 4 * 25000
    ∧ umaTenThirty.sum = 0
    ∧ tobiGate (sortedPlayers scenarioPoints fourPlayers) none 10 = false
    ∧ ((30000 - 25000) * (4 : ℚ) / 1000) = 20
    ∧ (fourPlayers.map scenarioResult.scores).sum = 0
    ∧ (fourPlayers.map scenarioResult.scores).sum ≠ 20 := by
  decide

/-- C1 witness: the standard scenario satisfies every hypothesis of the
amended claim (including lossless rounding) and its scores sum to 0. -/
theorem shared_split_score_sum_witness :
    (fourPlayers.map
      (calculateRankAndScore scenarioPoints umaTenThirty 10 none 20
        TieRankMode.shared_split (fun _ => none) fourPlayers 30000).scores).sum = 0 :=
  shared_split_score_sum scenarioPoints umaTenThirty 10 none 20 (fun _ => none)
    fourPlayers 25000 30000 (by decide) (by decide) (by decide) (by decide)
    (by decide) (by decide) (by decide) (by decide)

/-! ### Tie groups under `shared_split` -/

/-- C4 (confirmed): a `shared_split` tie group of size at least two that
starts at sorted position `s = 1 + (size of the preceding groups)` gives
every member rank `s`; each member's pre-tobi score is `computeScore` on
the arithmetic mean of the uma slice spanning the group's rank range, with
the oka split evenly over the group when `s = 1`; and when `s = 1` the
scores and ranks of every player outside the group do not depend on the
oka amount at all (they get no share of it). -/
theorem shared_split_tie_group (points : Points) (uma : List ℚ) (tb : ℚ)
    (tp : Option PlayerKey) (okaPt : ℚ) (m : PlayerKey → Option ℤ)
    (active : List PlayerKey) (ret : ℚ)
    (gsOne gsTwo : List (List (PlayerKey × ℚ))) (g : List (PlayerKey × ℚ))
    (hnd : active.Nodup) (hcomp : ∀ p ∈ active, (points p).isSome)
    (hgs : groupRuns (sortedPlayers points active) = gsOne ++ g :: gsTwo)
    (hlen : 2 ≤ g.length) (pr : PlayerKey × ℚ) (hpr : pr ∈ g) :
    ((calculateRankAndScore points uma tb tp okaPt TieRankMode.shared_split m active ret).ranks pr.1
        = ((1 + (gsOne.map List.length).sum : ℕ) : ℤ))
    ∧ ((baseResult points uma okaPt TieRankMode.shared_split m active ret).scores pr.1
        = computeScore ret pr.2
            (((uma.drop (1 + (gsOne.map List.length).sum - 1)).take g.length).sum / (g.length : ℚ))
            (if 1 + (gsOne.map List.length).sum = 1 then okaPt / (g.length : ℚ) else 0))
    ∧ (1 + (gsOne.map List.length).sum = 1 →
        ∀ q ∈ active, q ∉ g.map Prod.fst →
          ((baseResult points uma okaPt TieRankMode.shared_split m active ret).ranks q
             = (baseResult points uma 0 TieRankMode.shared_split m active ret).ranks q
          ∧ (baseResult points uma okaPt TieRankMode.shared_split m active ret).scores q
             = (baseResult points uma 0 TieRankMode.shared_split m active ret).scores q)) := by
  have hflat := groupRuns_flatten (sortedPlayers points active)
  have hndkeys : (((groupRuns (sortedPlayers points active)).flatten).map Prod.fst).Nodup := by
    rw [hflat]
    exact sortedPlayers_keys_nodup points active hcomp hnd
  have hndkeys2 : (((gsOne ++ g :: gsTwo).flatten).map Prod.fst).Nodup := by
    rw [← hgs]
    exact hndkeys
  have hg1 : g.length ≠ 1 := by omega
  have hchar := processGroups_shared_char uma okaPt ret
    (normalizeManualTieRanks points m active) gsOne gsTwo g pr hpr 1 zeroRS hndkeys2
  rw [if_neg hg1] at hchar
  refine ⟨?_, ?_, ?_⟩
  · rw [calculateRankAndScore_ranks_eq_base points uma tb tp okaPt
      TieRankMode.shared_split m active ret (not_length_filter_lt_of_all points active hcomp)]
    rw [baseResult, hgs]
    exact hchar.1
  · rw [baseResult, hgs]
    exact hchar.2
  · intro hone q hqa hqg
    -- locate the group of `q` among the later groups
    have hgsone : gsOne = [] := by
      cases gsOne with
      | nil => rfl
      | cons h t =>
        exfalso
        have hne : h ≠ [] := groupRuns_ne_nil _ h (by rw [hgs]; exact List.mem_append_left _ (List.mem_cons_self h t))
        have : 1 ≤ h.length := List.length_pos.mpr hne
        simp only [List.map_cons, List.sum_cons] at hone
        omega
    subst hgsone
    have hqs : q ∈ (sortedPlayers points active).map Prod.fst :=
      (sortedPlayers_keys_perm points active hcomp).mem_iff.mpr hqa
    obtain ⟨x, hxs, hxq⟩ := List.mem_map.mp hqs
    have hxf : x ∈ (groupRuns (sortedPlayers points active)).flatten := by
      rw [hflat]
      exact hxs
    rw [hgs] at hxf
    simp only [List.nil_append, List.flatten_cons, List.mem_append] at hxf
    rcases hxf with hxg | hxf
    · exact absurd (hxq ▸ List.mem_map_of_mem Prod.fst hxg) hqg
    obtain ⟨g2, hg2, hxg2⟩ := List.mem_flatten.mp hxf
    obtain ⟨t1, t2, hdec⟩ := List.append_of_mem hg2
    have hgs2 : groupRuns (sortedPlayers points active) = (g :: t1) ++ g2 :: t2 := by
      rw [hgs, hdec]
      rfl
    have hndkeys3 : ((((g :: t1) ++ g2 :: t2).flatten).map Prod.fst).Nodup := by
      rw [← hgs2]
      exact hndkeys
    have hchar1 := processGroups_shared_char uma okaPt ret
      (normalizeManualTieRanks points m active) (g :: t1) t2 g2 x hxg2 1 zeroRS hndkeys3
    have hchar0 := processGroups_shared_char uma 0 ret
      (normalizeManualTieRanks points m active) (g :: t1) t2 g2 x hxg2 1 zeroRS hndkeys3
    have hs2 : 1 + (((g :: t1).map List.length).sum) ≠ 1 := by
      simp only [List.map_cons, List.sum_cons]
      omega
    rw [if_neg hs2] at hchar1 hchar0
    rw [baseResult, baseResult, hgs2, ← hxq]
    constructor
    · rw [hchar1.1, hchar0.1]
    · rw [hchar1.2, hchar0.2]
      by_cases h2 : g2.length = 1
      · rw [if_pos h2, if_pos h2]
      · rw [if_neg h2, if_neg h2, if_neg hs2, if_neg hs2]

/-- Points for the C4 witness: two players tie at the top. -/
def topTiePoints : Points := fun p => match p with
  | PlayerKey.A => some 30000
  | PlayerKey.B => some 30000
  | PlayerKey.C => some 25000
  | PlayerKey.D => some 15000

/-- C4 witness: the top tie pair both take rank 1, their uma is the mean of
the first two uma entries and the oka is split, giving score 30 each. -/
theorem shared_split_tie_group_witness :
    (calculateRankAndScore topTiePoints umaTenThirty 0 none 20
      TieRankMode.shared_split (fun _ => none) fourPlayers 30000).ranks PlayerKey.A = 1
    ∧ (baseResult topTiePoints umaTenThirty 20 TieRankMode.shared_split
        (fun _ => none) fourPlayers 30000).scores PlayerKey.A = 30 := by
  have h := shared_split_tie_group topTiePoints umaTenThirty 0 none 20 (fun _ => none)
    fourPlayers 30000 [] [[(PlayerKey.C, 25000)], [(PlayerKey.D, 15000)]]
    [(PlayerKey.A, 30000), (PlayerKey.B, 30000)]
    (by decide) (by decide) (by decide) (by decide) (PlayerKey.A, 30000) (by decide)
  constructor
  · rw [h.1]
    decide
  · rw [h.2.1]
    decide

/-! ### The tobi penalty -/

theorem baseResult_shared_ranks_pos (points : Points) (uma : List ℚ) (okaPt : ℚ)
    (m : PlayerKey → Option ℤ) (active : List PlayerKey) (ret : ℚ)
    (hnd : active.Nodup) (hcomp : ∀ p ∈ active, (points p).isSome) :
    ∀ x ∈ sortedPlayers points active,
      0 < (baseResult points uma okaPt TieRankMode.shared_split m active ret).ranks x.1 := by
  intro x hx
  have hflat := groupRuns_flatten (sortedPlayers points active)
  have hndkeys : (((groupRuns (sortedPlayers points active)).flatten).map Prod.fst).Nodup := by
    rw [hflat]
    exact sortedPlayers_keys_nodup points active hcomp hnd
  have hxf : x ∈ (groupRuns (sortedPlayers points active)).flatten := by
    rw [hflat]
    exact hx
  obtain ⟨g, hg, hxg⟩ := List.mem_flatten.mp hxf
  obtain ⟨t1, t2, hdec⟩ := List.append_of_mem hg
  have hchar := processGroups_shared_char uma okaPt ret
    (normalizeManualTieRanks points m active) t1 t2 g x hxg 1 zeroRS
    (by rw [← hdec]; exact hndkeys)
  rw [baseResult, hdec, hchar.1]
  have h1 : 0 < 1 + (t1.map List.length).sum := by omega
  exact_mod_cast h1

theorem mem_bottomKeys_iff (points : Points) (uma : List ℚ) (okaPt : ℚ)
    (m : PlayerKey → Option ℤ) (active : List PlayerKey) (ret : ℚ)
    (hnd : active.Nodup) (hcomp : ∀ p ∈ active, (points p).isSome) (q : PlayerKey) :
    q ∈ bottomKeys (sortedPlayers points active)
        (baseResult points uma okaPt TieRankMode.shared_split m active ret)
      ↔ q ∈ active
        ∧ (points q).getD 0 = listMin ((sortedPlayers points active).map Prod.snd) := by
  unfold bottomKeys
  rw [List.mem_map]
  constructor
  · rintro ⟨x, hx, rfl⟩
    have hxp := List.of_mem_filter hx
    have hxs := List.mem_of_mem_filter hx
    obtain ⟨ha, hsome⟩ := (mem_filledList points active x).mp
      ((sortedPlayers_perm points active).mem_iff.mp hxs)
    simp only [Bool.and_eq_true, decide_eq_true_eq] at hxp
    refine ⟨ha, ?_⟩
    rw [hsome, Option.getD_some]
    exact hxp.1
  · rintro ⟨ha, hmin⟩
    obtain ⟨v, hv⟩ := Option.isSome_iff_exists.mp (hcomp q ha)
    have hqv : (q, v) ∈ sortedPlayers points active :=
      (sortedPlayers_perm points active).mem_iff.mpr
        ((mem_filledList points active (q, v)).mpr ⟨ha, hv⟩)
    refine ⟨(q, v), List.mem_filter_of_mem hqv ?_, rfl⟩
    simp only [Bool.and_eq_true, decide_eq_true_eq]
    constructor
    · rw [hv, Option.getD_some] at hmin
      exact hmin
    · exact baseResult_shared_ranks_pos points uma okaPt m active ret hnd hcomp (q, v) hqv

theorem bottomKeys_length_eq (points : Points) (uma : List ℚ) (okaPt : ℚ)
    (m : PlayerKey → Option ℤ) (active : List PlayerKey) (ret : ℚ)
    (hnd : active.Nodup) (hcomp : ∀ p ∈ active, (points p).isSome) :
    (bottomKeys (sortedPlayers points active)
        (baseResult points uma okaPt TieRankMode.shared_split m active ret)).length
      = (active.filter fun p =>
          decide ((points p).getD 0
            = listMin ((sortedPlayers points active).map Prod.snd))).length := by
  unfold bottomKeys
  rw [List.length_map]
  have hfc : (sortedPlayers points active).filter (fun x =>
        decide (x.2 = listMin ((sortedPlayers points active).map Prod.snd))
          && decide (0 < (baseResult points uma okaPt TieRankMode.shared_split m active ret).ranks x.1))
      = (sortedPlayers points active).filter (fun x =>
        decide (x.2 = listMin ((sortedPlayers points active).map Prod.snd))) := by
    apply List.filter_congr
    intro x hx
    have hpos := baseResult_shared_ranks_pos points uma okaPt m active ret hnd hcomp x hx
    simp [hpos]
  rw [hfc]
  have hpf := (sortedPlayers_perm points active).filter (fun x : PlayerKey × ℚ =>
    decide (x.2 = listMin ((sortedPlayers points active).map Prod.snd)))
  rw [hpf.length_eq, filledList_eq_map points active hcomp, List.filter_map, List.length_map]
  rfl

/-- C2 (amended): when the tobi adjustment fires, under `shared_split` every
minimum-point player other than the designated tobi player has exactly
`tobiBonus / B` subtracted (`B` = number of minimum-point players) provided
that quantity is a multiple of 0.1 (otherwise the subtraction is re-rounded
to one decimal); under `manual_order` every player at the last rank other
than the designated tobi player has the full `tobiBonus` subtracted,
provided `tobiBonus` is a multiple of 0.1. -/
theorem tobi_penalty_split (points : Points) (uma : List ℚ) (tb okaPt : ℚ)
    (m : PlayerKey → Option ℤ) (active : List PlayerKey) (ret : ℚ) (t : PlayerKey)
    (hnd : active.Nodup) (hcomp : ∀ p ∈ active, (points p).isSome) :
    (tobiGate (sortedPlayers points active) (some t) tb = true →
      ∀ q ∈ active, q ≠ t →
        (points q).getD 0 = listMin ((sortedPlayers points active).map Prod.snd) →
        (∃ z : ℤ, tb / ((active.filter fun p =>
            decide ((points p).getD 0
              = listMin ((sortedPlayers points active).map Prod.snd))).length : ℚ)
          = (z : ℚ) / 10) →
        (calculateRankAndScore points uma tb (some t) okaPt
            TieRankMode.shared_split m active ret).scores q
          = (baseResult points uma okaPt TieRankMode.shared_split m active ret).scores q
            - tb / ((active.filter fun p =>
                decide ((points p).getD 0
                  = listMin ((sortedPlayers points active).map Prod.snd))).length : ℚ))
    ∧ (tobiGate (sortedPlayers points active) (some t) tb = true →
      ∀ q ∈ active, q ≠ t →
        (baseResult points uma okaPt TieRankMode.manual_order m active ret).ranks q
          = (active.length : ℤ) →
        (∃ z : ℤ, tb = (z : ℚ) / 10) →
        (calculateRankAndScore points uma tb (some t) okaPt
            TieRankMode.manual_order m active ret).scores q
          = (baseResult points uma okaPt TieRankMode.manual_order m active ret).scores q - tb) := by
  have hndk : ((sortedPlayers points active).map Prod.fst).Nodup :=
    sortedPlayers_keys_nodup points active hcomp hnd
  constructor
  · intro hgate q hqa hqt hqmin hz
    have hc := calculateRankAndScore_complete points uma tb (some t) okaPt
      TieRankMode.shared_split m active ret hcomp
    rw [if_pos hgate] at hc
    rw [hc, applyTobi_some_scores, if_neg (fun h => hqt h.2),
      applyTobiPenalty_shared_scores tb _ _ _ hndk q,
      if_pos ((mem_bottomKeys_iff points uma okaPt m active ret hnd hcomp q).mpr ⟨hqa, hqmin⟩),
      bottomKeys_length_eq points uma okaPt m active ret hnd hcomp]
    have hten : Tenth ((baseResult points uma okaPt TieRankMode.shared_split m active ret).scores q
        - tb / ((active.filter fun p =>
            decide ((points p).getD 0
              = listMin ((sortedPlayers points active).map Prod.snd))).length : ℚ)) :=
      tenth_sub
        (processGroups_scores_tenth _ _ _ _ _ _ _ _ (fun _ => tenth_zero) q)
        hz
    exact round10_tenth hten
  · intro hgate q hqa hqt hqlast hz
    have hc := calculateRankAndScore_complete points uma tb (some t) okaPt
      TieRankMode.manual_order m active ret hcomp
    rw [if_pos hgate] at hc
    have hqs : q ∈ (sortedPlayers points active).map Prod.fst :=
      (sortedPlayers_keys_perm points active hcomp).mem_iff.mpr hqa
    rw [hc, applyTobi_some_scores, if_neg (fun h => hqt h.2),
      applyTobiPenalty_manual_scores tb _ _ _ hndk q,
      if_pos ⟨hqs, hqlast⟩]
    have hten : Tenth ((baseResult points uma okaPt TieRankMode.manual_order m active ret).scores q - tb) :=
      tenth_sub
        (processGroups_scores_tenth _ _ _ _ _ _ _ _ (fun _ => tenth_zero) q)
        hz
    exact round10_tenth hten

/-- Points for the C2 counterexample: three players bust and tie at the
minimum. -/
def tripleBottomPoints : Points := fun p => match p with
  | PlayerKey.A => some 103000
  | _ => some (-1000)

/-- C2 counterexample: with three players tied at the minimum and
`tobiBonus = 10`, the penalised score moves from −41 to −44.3 — a decrease
of 3.3, not of `10 / 3` as the claim states. -/
theorem tobi_penalty_split_counterexample :
    tobiGate (sortedPlayers tripleBottomPoints fourPlayers) (some PlayerKey.A) 10 = true
    ∧ (tripleBottomPoints PlayerKey.B).getD 0
        = listMin ((sortedPlayers tripleBottomPoints fourPlayers).map Prod.snd)
    ∧ (fourPlayers.filter fun p =>
        decide ((tripleBottomPoints p).getD 0
          = listMin ((sortedPlayers tripleBottomPoints fourPlayers).map Prod.snd))).length = 3
    ∧ (calculateRankAndScore tripleBottomPoints umaTenThirty 10 (some PlayerKey.A) 20
        TieRankMode.shared_split (fun _ => none) fourPlayers 30000).scores PlayerKey.B
      = -443 / 10
    ∧ (baseResult tripleBottomPoints umaTenThirty 20 TieRankMode.shared_split
        (fun _ => none) fourPlayers 30000).scores PlayerKey.B = -41
    ∧ (-443 / 10 : ℚ) ≠ -41 - 10 / 3 := by
  decide

/-- Points for the C2 witness: two players bust and tie at the minimum, so
the 20-point bonus splits into an exact 10 each. -/
def doubleBottomPoints : Points := fun p => match p with
  | PlayerKey.A => some 50000
  | PlayerKey.B => some 36000
  | PlayerKey.C => some (-3000)
  | PlayerKey.D => some (-3000)

/-- C2 witness: with two tied minimum players and `tobiBonus = 20` the
penalty `20 / 2 = 10` is exact. -/
theorem tobi_penalty_split_witness :
    (calculateRankAndScore doubleBottomPoints umaTenThirty 20 (some PlayerKey.A) 20
      TieRankMode.shared_split (fun _ => none) fourPlayers 30000).scores PlayerKey.C
    = (baseResult doubleBottomPoints umaTenThirty 20 TieRankMode.shared_split
        (fun _ => none) fourPlayers 30000).scores PlayerKey.C - 10 := by
  have h := (tobi_penalty_split doubleBottomPoints umaTenThirty 20 20 (fun _ => none)
      fourPlayers 30000 PlayerKey.A (by decide) (by decide)).1 (by decide) PlayerKey.C
      (by decide) (by decide) (by decide) ⟨100, by decide⟩
  have hlen : (fourPlayers.filter fun p =>
      decide ((doubleBottomPoints p).getD 0
        = listMin ((sortedPlayers doubleBottomPoints fourPlayers).map Prod.snd))).length = 2 := by
    decide
  rw [h, hlen]
  norm_num

/-! ### The candidate map of `getTieRankCandidateMap` -/

theorem foldl_setFun_notMem_any {α : Type} (v : PlayerKey × ℚ → α) (l : List (PlayerKey × ℚ))
    (q : PlayerKey) (hq : ∀ x ∈ l, x.1 ≠ q) :
    ∀ f : PlayerKey → α, (l.foldl (fun f x => setFun f x.1 (v x)) f) q = f q := by
  induction l with
  | nil => intro f; rfl
  | cons y ys ih =>
    intro f
    simp only [List.foldl_cons]
    rw [ih (fun x hx => hq x (List.mem_cons_of_mem y hx))]
    exact setFun_ne _ (fun h => hq y (List.mem_cons_self y ys) h.symm) _

theorem foldl_setFun_mem_any {α : Type} (v : PlayerKey × ℚ → α) (l : List (PlayerKey × ℚ))
    (hnd : (l.map Prod.fst).Nodup) (x : PlayerKey × ℚ) (hx : x ∈ l) :
    ∀ f : PlayerKey → α, (l.foldl (fun f x => setFun f x.1 (v x)) f) x.1 = v x := by
  induction l with
  | nil => cases hx
  | cons y ys ih =>
    intro f
    simp only [List.map_cons, List.nodup_cons] at hnd
    simp only [List.foldl_cons]
    rcases List.mem_cons.mp hx with rfl | hmem
    · rw [foldl_setFun_notMem_any v ys x.1
        (fun z hz h => hnd.1 (by rw [← h]; exact List.mem_map_of_mem Prod.fst hz))]
      exact setFun_self _ _ _
    · exact ih hnd.2 hmem _

theorem candidateFromGroups_notMem (gs : List (List (PlayerKey × ℚ))) (q : PlayerKey)
    (hq : ∀ x ∈ gs.flatten, x.1 ≠ q) :
    ∀ (i : ℕ) (m0 : PlayerKey → Option (List ℤ)), candidateFromGroups i gs m0 q = m0 q := by
  induction gs with
  | nil => intro i m0; rfl
  | cons h gs ih =>
    intro i m0
    rw [candidateFromGroups]
    rw [ih (fun x hx => hq x (by rw [List.flatten_cons]; exact List.mem_append_right h hx))]
    split
    · exact foldl_setFun_notMem_any _ _ _
        (fun x hx => hq x (by rw [List.flatten_cons]; exact List.mem_append_left _ hx)) _
    · rfl

theorem candidateFromGroups_mem (t1 t2 : List (List (PlayerKey × ℚ)))
    (g : List (PlayerKey × ℚ)) (x : PlayerKey × ℚ) (hx : x ∈ g) (hlen : 2 ≤ g.length) :
    ∀ (i : ℕ) (m0 : PlayerKey → Option (List ℤ)),
      ((((t1 ++ g :: t2).flatten).map Prod.fst).Nodup) →
      candidateFromGroups i (t1 ++ g :: t2) m0 x.1
        = some ((List.range g.length).map fun idx : ℕ =>
            ((i + (t1.map List.length).sum : ℕ) : ℤ) + (idx : ℤ) + 1) := by
  induction t1 with
  | nil =>
    intro i m0 hnd
    simp only [List.nil_append] at hnd ⊢
    rw [candidateFromGroups]
    rw [candidateFromGroups_notMem t2 x.1 (nodup_flatten_cons_head hnd x hx)]
    rw [if_pos hlen]
    rw [foldl_setFun_mem_any _ _ (nodup_flatten_cons_group hnd) x hx]
    simp
  | cons h t1 ih =>
    intro i m0 hnd
    simp only [List.cons_append] at hnd ⊢
    rw [candidateFromGroups]
    have := ih (i + h.length) (if 2 ≤ h.length then
      h.foldl (fun m x =>
        setFun m x.1 (some ((List.range h.length).map fun idx : ℕ => (i : ℤ) + (idx : ℤ) + 1))) m0
      else m0) (nodup_flatten_cons_tail hnd)
    rw [this]
    have harith : i + h.length + (t1.map List.length).sum
        = i + ((h :: t1).map List.length).sum := by
      simp only [List.map_cons, List.sum_cons]
      omega
    rw [harith]

theorem candidateFromGroups_mem_small (t1 t2 : List (List (PlayerKey × ℚ)))
    (g : List (PlayerKey × ℚ)) (x : PlayerKey × ℚ) (hx : x ∈ g) (hlen : g.length < 2) :
    ∀ (i : ℕ) (m0 : PlayerKey → Option (List ℤ)),
      ((((t1 ++ g :: t2).flatten).map Prod.fst).Nodup) →
      candidateFromGroups i (t1 ++ g :: t2) m0 x.1 = m0 x.1 := by
  induction t1 with
  | nil =>
    intro i m0 hnd
    simp only [List.nil_append] at hnd ⊢
    rw [candidateFromGroups]
    rw [candidateFromGroups_notMem t2 x.1 (nodup_flatten_cons_head hnd x hx)]
    rw [if_neg (by omega)]
  | cons h t1 ih =>
    intro i m0 hnd
    simp only [List.cons_append] at hnd ⊢
    rw [candidateFromGroups]
    rw [ih (i + h.length) _ (nodup_flatten_cons_tail hnd)]
    have hxt : x ∈ ((t1 ++ g :: t2).flatten) := by
      rw [List.flatten_append, List.flatten_cons]
      exact List.mem_append_right _ (List.mem_append_left _ hx)
    have hxh : ∀ y ∈ h, y.1 ≠ x.1 := by
      intro y hy
      exact (nodup_flatten_cons_head hnd y hy x hxt).symm
    split
    · exact foldl_setFun_notMem_any _ _ _ (fun y hy h2 => hxh y hy h2) _
    · rfl

theorem getTieRankCandidateMap_mem (points : Points) (active : List PlayerKey)
    (hnd : active.Nodup) (hcomp : ∀ p ∈ active, (points p).isSome)
    (t1 t2 : List (List (PlayerKey × ℚ))) (g : List (PlayerKey × ℚ))
    (hgs : groupRuns (sortedPlayers points active) = t1 ++ g :: t2)
    (x : PlayerKey × ℚ) (hx : x ∈ g) (hlen : 2 ≤ g.length) :
    getTieRankCandidateMap points active x.1
      = some ((List.range g.length).map fun idx : ℕ =>
          (((t1.map List.length).sum : ℕ) : ℤ) + (idx : ℤ) + 1) := by
  rw [getTieRankCandidateMap]
  rw [if_neg (by
    rw [(sortedPlayers_perm points active).length_eq, filledList_length points active hcomp]
    exact lt_irrefl _)]
  have hndkeys : (((t1 ++ g :: t2).flatten).map Prod.fst).Nodup := by
    rw [← hgs, groupRuns_flatten]
    exact sortedPlayers_keys_nodup points active hcomp hnd
  rw [hgs, candidateFromGroups_mem t1 t2 g x hx hlen 0 _ hndkeys]
  simp

theorem getTieRankCandidateMap_small (points : Points) (active : List PlayerKey)
    (hnd : active.Nodup) (hcomp : ∀ p ∈ active, (points p).isSome)
    (t1 t2 : List (List (PlayerKey × ℚ))) (g : List (PlayerKey × ℚ))
    (hgs : groupRuns (sortedPlayers points active) = t1 ++ g :: t2)
    (x : PlayerKey × ℚ) (hx : x ∈ g) (hlen : g.length < 2) :
    getTieRankCandidateMap points active x.1 = none := by
  rw [getTieRankCandidateMap]
  rw [if_neg (by
    rw [(sortedPlayers_perm points active).length_eq, filledList_length points active hcomp]
    exact lt_irrefl _)]
  have hndkeys : (((t1 ++ g :: t2).flatten).map Prod.fst).Nodup := by
    rw [← hgs, groupRuns_flatten]
    exact sortedPlayers_keys_nodup points active hcomp hnd
  rw [hgs, candidateFromGroups_mem_small t1 t2 g x hx hlen 0 _ hndkeys]

/-! ### Distinct tie groups have distinct candidate lists -/

theorem range_offset_ne (i j li lj : ℕ) (hi : 1 ≤ li) (hj : 1 ≤ lj) (hij : i ≠ j) :
    ((List.range li).map fun idx : ℕ => (i : ℤ) + (idx : ℤ) + 1)
      ≠ ((List.range lj).map fun idx : ℕ => (j : ℤ) + (idx : ℤ) + 1) := by
  intro h
  have h1 : ((i : ℤ) + ((0 : ℕ) : ℤ) + 1)
      ∈ (List.range li).map fun idx : ℕ => (i : ℤ) + (idx : ℤ) + 1 :=
    List.mem_map.mpr ⟨0, List.mem_range.mpr hi, rfl⟩
  have h2 : ((j : ℤ) + ((0 : ℕ) : ℤ) + 1)
      ∈ (List.range lj).map fun idx : ℕ => (j : ℤ) + (idx : ℤ) + 1 :=
    List.mem_map.mpr ⟨0, List.mem_range.mpr hj, rfl⟩
  rw [h] at h1
  rw [← h] at h2
  obtain ⟨a, _, ha⟩ := List.mem_map.mp h1
  obtain ⟨b, _, hb⟩ := List.mem_map.mp h2
  apply hij
  push_cast at ha hb
  omega

theorem sum_take_lt_sum_take (gs : List (List (PlayerKey × ℚ)))
    (hne : ∀ g ∈ gs, g ≠ []) (n n' : ℕ) (hlt : n < n') (hn' : n' < gs.length) :
    ((gs.take n).map List.length).sum < ((gs.take n').map List.length).sum := by
  have h1 : gs.take n' = gs.take n ++ (gs.drop n).take (n' - n) := by
    rw [← List.take_add]
    congr 1
    omega
  rw [h1, List.map_append, List.sum_append]
  have hne2 : (gs.drop n).take (n' - n) ≠ [] := by
    apply List.length_pos.mp
    rw [List.length_take, List.length_drop]
    omega
  obtain ⟨h0, t0, hht⟩ := List.exists_cons_of_ne_nil hne2
  have hh0 : h0 ∈ gs := by
    have hmem : h0 ∈ (gs.drop n).take (n' - n) := by
      rw [hht]
      exact List.mem_cons_self _ _
    exact (List.drop_sublist n gs).subset ((List.take_sublist _ _).subset hmem)
  have hpos : 1 ≤ h0.length := List.length_pos.mpr (hne h0 hh0)
  rw [hht, List.map_cons, List.sum_cons]
  omega

theorem decomp_take (gs t1 t2 : List (List (PlayerKey × ℚ))) (g : List (PlayerKey × ℚ))
    (h : gs = t1 ++ g :: t2) : t1 = gs.take t1.length := by
  rw [h, List.take_left]

theorem decomp_offset_ne (gs : List (List (PlayerKey × ℚ))) (hne : ∀ g ∈ gs, g ≠ [])
    (t1 t2 t1' t2' : List (List (PlayerKey × ℚ))) (g g' : List (PlayerKey × ℚ))
    (h1 : gs = t1 ++ g :: t2) (h2 : gs = t1' ++ g' :: t2')
    (hl : t1.length ≠ t1'.length) :
    (t1.map List.length).sum ≠ (t1'.map List.length).sum := by
  have ht1 := decomp_take gs t1 t2 g h1
  have ht1' := decomp_take gs t1' t2' g' h2
  have hlen1 : t1.length < gs.length := by
    rw [h1, List.length_append, List.length_cons]
    omega
  have hlen2 : t1'.length < gs.length := by
    rw [h2, List.length_append, List.length_cons]
    omega
  rcases Nat.lt_or_ge t1.length t1'.length with h | h
  · have hs := sum_take_lt_sum_take gs hne _ _ h hlen2
    rw [← ht1, ← ht1'] at hs
    omega
  · have hgt : t1'.length < t1.length := by omega
    have hs := sum_take_lt_sum_take gs hne _ _ hgt hlen1
    rw [← ht1, ← ht1'] at hs
    omega

theorem decomp_eq_of_length_eq (gs t1 t2 t1' t2' : List (List (PlayerKey × ℚ)))
    (g g' : List (PlayerKey × ℚ))
    (h1 : gs = t1 ++ g :: t2) (h2 : gs = t1' ++ g' :: t2')
    (hl : t1.length = t1'.length) : g = g' := by
  have ht1 := decomp_take gs t1 t2 g h1
  have ht1' := decomp_take gs t1' t2' g' h2
  have heq : t1 = t1' := by
    rw [ht1, ht1', hl]
  subst heq
  have := h1.symm.trans h2
  have h3 := List.append_cancel_left this
  exact (List.cons.injEq _ _ _ _ ▸ h3).1

/-! ### `normalizeManualTieRanks` only depends on a group's own entries -/

theorem lookupUsed_insertUsed (c k : List ℤ) (v : ℤ) (u : List (List ℤ × List ℤ)) :
    lookupUsed c (insertUsed k v u)
      = if c = k then v :: lookupUsed k u else lookupUsed c u := by
  induction u with
  | nil =>
    simp only [insertUsed, lookupUsed]
    by_cases h : k = c
    · rw [if_pos h, if_pos h.symm]
    · rw [if_neg h, if_neg (fun h2 => h h2.symm)]
  | cons e u ih =>
    obtain ⟨k0, vs⟩ := e
    by_cases h0 : k0 = k
    · subst h0
      rw [insertUsed, if_pos rfl, lookupUsed]
      by_cases h : k0 = c
      · rw [if_pos h, if_pos h.symm, lookupUsed, if_pos rfl]
      · rw [if_neg h, if_neg (fun h2 => h h2.symm), lookupUsed, if_neg h]
    · rw [insertUsed, if_neg h0, lookupUsed]
      by_cases h : k0 = c
      · have hck : ¬ c = k := by
          intro h2
          rw [h, h2] at h0
          exact h0 rfl
        rw [if_pos h, if_neg hck, lookupUsed, if_pos h]
      · rw [if_neg h, ih]
        by_cases h2 : c = k
        · rw [if_pos h2, if_pos h2, lookupUsed, if_neg h0]
        · rw [if_neg h2, if_neg h2, lookupUsed, if_neg h]

theorem normStep_skip_cm (cm : PlayerKey → Option (List ℤ)) (m : PlayerKey → Option ℤ)
    (st : NormState) (p : PlayerKey) (h : cm p = none) : normStep cm m st p = st := by
  cases hm : m p <;> rw [normStep, h, hm]

theorem normStep_skip_m (cm : PlayerKey → Option (List ℤ)) (m : PlayerKey → Option ℤ)
    (st : NormState) (p : PlayerKey) (h : m p = none) : normStep cm m st p = st := by
  cases hc : cm p <;> rw [normStep, hc, h]

theorem normStep_some (cm : PlayerKey → Option (List ℤ)) (m : PlayerKey → Option ℤ)
    (st : NormState) (p : PlayerKey) (c : List ℤ) (raw : ℤ)
    (hc : cm p = some c) (hm : m p = some raw) :
    normStep cm m st p
      = if raw ∈ c then
          (if raw ∈ lookupUsed c st.used then st
           else { next := setFun st.next p (some raw), used := insertUsed c raw st.used })
        else st := by
  rw [normStep, hc, hm]

/-- One step of the normalisation loop preserves agreement outside the tie
group `K` and outside its used-set key `Cg`. -/
theorem normStep_preserve (cm : PlayerKey → Option (List ℤ)) (m m' : PlayerKey → Option ℤ)
    (K : List PlayerKey) (Cg : List ℤ)
    (hagree : ∀ q, q ∉ K → m' q = m q) (p : PlayerKey)
    (hp1 : p ∈ K → cm p = some Cg)
    (hp2 : p ∉ K → cm p = none ∨ ∃ c, cm p = some c ∧ c ≠ Cg)
    (st st' : NormState)
    (h1 : ∀ q, q ∉ K → st.next q = st'.next q)
    (h2 : ∀ c, c ≠ Cg → lookupUsed c st.used = lookupUsed c st'.used) :
    (∀ q, q ∉ K → (normStep cm m st p).next q = (normStep cm m' st' p).next q)
    ∧ (∀ c, c ≠ Cg →
        lookupUsed c (normStep cm m st p).used = lookupUsed c (normStep cm m' st' p).used) := by
  by_cases hpK : p ∈ K
  · -- both runs may only touch the entry of `p` and the used set at `Cg`
    have hcm := hp1 hpK
    have hside : ∀ (mm : PlayerKey → Option ℤ) (stt : NormState),
        (∀ q, q ∉ K → (normStep cm mm stt p).next q = stt.next q)
        ∧ (∀ c, c ≠ Cg →
            lookupUsed c (normStep cm mm stt p).used = lookupUsed c stt.used) := by
      intro mm stt
      cases hm : mm p with
      | none =>
        rw [normStep_skip_m cm mm stt p hm]
        exact ⟨fun q _ => rfl, fun c _ => rfl⟩
      | some raw =>
        rw [normStep_some cm mm stt p Cg raw hcm hm]
        by_cases hin : raw ∈ Cg
        · rw [if_pos hin]
          by_cases hused : raw ∈ lookupUsed Cg stt.used
          · rw [if_pos hused]
            exact ⟨fun q _ => rfl, fun c _ => rfl⟩
          · rw [if_neg hused]
            refine ⟨fun q hq => ?_, fun c hc => ?_⟩
            · exact setFun_ne _ (fun h => hq (by rw [h]; exact hpK)) _
            · rw [lookupUsed_insertUsed, if_neg hc]
        · rw [if_neg hin]
          exact ⟨fun q _ => rfl, fun c _ => rfl⟩
    obtain ⟨ha1, ha2⟩ := hside m st
    obtain ⟨hb1, hb2⟩ := hside m' st'
    exact ⟨fun q hq => by rw [ha1 q hq, hb1 q hq]; exact h1 q hq,
      fun c hc => by rw [ha2 c hc, hb2 c hc]; exact h2 c hc⟩
  · have hmm := hagree p hpK
    rcases hp2 hpK with hcm | ⟨c, hcm, hc⟩
    · rw [normStep_skip_cm cm m st p hcm, normStep_skip_cm cm m' st' p hcm]
      exact ⟨h1, h2⟩
    · cases hm : m p with
      | none =>
        rw [normStep_skip_m cm m st p hm, normStep_skip_m cm m' st' p (hmm.trans hm)]
        exact ⟨h1, h2⟩
      | some raw =>
        rw [normStep_some cm m st p c raw hcm hm,
          normStep_some cm m' st' p c raw hcm (hmm.trans hm)]
        by_cases hin : raw ∈ c
        · rw [if_pos hin, if_pos hin, h2 c hc]
          by_cases hused : raw ∈ lookupUsed c st'.used
          · rw [if_pos hused, if_pos hused]
            exact ⟨h1, h2⟩
          · rw [if_neg hused, if_neg hused]
            refine ⟨fun q hq => ?_, fun c2 hc2 => ?_⟩
            · by_cases hqp : q = p
              · subst hqp
                exact (setFun_self st.next q (some raw)).trans
                  (setFun_self st'.next q (some raw)).symm
              · exact (setFun_ne st.next hqp (some raw)).trans
                  ((h1 q hq).trans (setFun_ne st'.next hqp (some raw)).symm)
            · rw [lookupUsed_insertUsed, lookupUsed_insertUsed]
              by_cases hc2c : c2 = c
              · rw [if_pos hc2c, if_pos hc2c, h2 c hc]
              · rw [if_neg hc2c, if_neg hc2c]
                exact h2 c2 hc2
        · rw [if_neg hin, if_neg hin]
          exact ⟨h1, h2⟩

theorem normStep_fold_agree (cm : PlayerKey → Option (List ℤ)) (m m' : PlayerKey → Option ℤ)
    (K : List PlayerKey) (Cg : List ℤ) (hagree : ∀ q, q ∉ K → m' q = m q) :
    ∀ l : List PlayerKey,
      (∀ p ∈ l, (p ∈ K → cm p = some Cg)
        ∧ (p ∉ K → cm p = none ∨ ∃ c, cm p = some c ∧ c ≠ Cg)) →
      ∀ st st' : NormState,
        (∀ q, q ∉ K → st.next q = st'.next q) →
        (∀ c, c ≠ Cg → lookupUsed c st.used = lookupUsed c st'.used) →
        (∀ q, q ∉ K →
          (l.foldl (normStep cm m) st).next q = (l.foldl (normStep cm m') st').next q)
        ∧ (∀ c, c ≠ Cg →
          lookupUsed c (l.foldl (normStep cm m) st).used
            = lookupUsed c (l.foldl (normStep cm m') st').used) := by
  intro l
  induction l with
  | nil => intro _ st st' h1 h2; exact ⟨h1, h2⟩
  | cons p ps ih =>
    intro hl st st' h1 h2
    simp only [List.foldl_cons]
    obtain ⟨hs1, hs2⟩ := normStep_preserve cm m m' K Cg hagree p
      (hl p (List.mem_cons_self p ps)).1 (hl p (List.mem_cons_self p ps)).2 st st' h1 h2
    exact ih (fun q hq => hl q (List.mem_cons_of_mem p hq)) _ _ hs1 hs2

/-- Changing the manual entries of one tie group's members does not change
the normalised entry of anyone outside that group. -/
theorem normalize_agree_off (points : Points) (m m' : PlayerKey → Option ℤ)
    (active : List PlayerKey) (t1 t2 : List (List (PlayerKey × ℚ)))
    (g : List (PlayerKey × ℚ))
    (hnd : active.Nodup) (hcomp : ∀ p ∈ active, (points p).isSome)
    (hgs : groupRuns (sortedPlayers points active) = t1 ++ g :: t2)
    (hlen : 2 ≤ g.length)
    (hagree : ∀ q, q ∉ g.map Prod.fst → m' q = m q) :
    ∀ q, q ∉ g.map Prod.fst →
      normalizeManualTieRanks points m active q = normalizeManualTieRanks points m' active q := by
  have hne := groupRuns_ne_nil (sortedPlayers points active)
  have hl : ∀ p ∈ active,
      (p ∈ g.map Prod.fst → getTieRankCandidateMap points active p
        = some ((List.range g.length).map fun idx : ℕ =>
            (((t1.map List.length).sum : ℕ) : ℤ) + (idx : ℤ) + 1))
      ∧ (p ∉ g.map Prod.fst → getTieRankCandidateMap points active p = none
        ∨ ∃ c, getTieRankCandidateMap points active p = some c
            ∧ c ≠ ((List.range g.length).map fun idx : ℕ =>
                (((t1.map List.length).sum : ℕ) : ℤ) + (idx : ℤ) + 1)) := by
    intro p hpa
    constructor
    · intro hpK
      obtain ⟨x, hxg, hxq⟩ := List.mem_map.mp hpK
      rw [← hxq]
      exact getTieRankCandidateMap_mem points active hnd hcomp t1 t2 g hgs x hxg hlen
    · intro hpK
      have hps : p ∈ (sortedPlayers points active).map Prod.fst :=
        (sortedPlayers_keys_perm points active hcomp).mem_iff.mpr hpa
      obtain ⟨x, hxs, hxq⟩ := List.mem_map.mp hps
      have hxf : x ∈ (groupRuns (sortedPlayers points active)).flatten := by
        rw [groupRuns_flatten]
        exact hxs
      obtain ⟨g2, hg2, hxg2⟩ := List.mem_flatten.mp hxf
      obtain ⟨s1, s2, hdec⟩ := List.append_of_mem hg2
      by_cases hlen2 : 2 ≤ g2.length
      · right
        have hcm2 := getTieRankCandidateMap_mem points active hnd hcomp
          s1 s2 g2 hdec x hxg2 hlen2
        rw [hxq] at hcm2
        refine ⟨_, hcm2, ?_⟩
        by_cases hsame : s1.length = t1.length
        · exfalso
          have hgg : g2 = g := decomp_eq_of_length_eq (groupRuns (sortedPlayers points active))
            s1 s2 t1 t2 g2 g hdec hgs hsame
          exact hpK (by rw [← hxq]; exact List.mem_map_of_mem Prod.fst (hgg ▸ hxg2))
        · apply range_offset_ne
          · omega
          · omega
          · exact decomp_offset_ne (groupRuns (sortedPlayers points active)) hne
              s1 s2 t1 t2 g2 g hdec hgs hsame
      · left
        have hcm2 := getTieRankCandidateMap_small points active hnd hcomp
          s1 s2 g2 hdec x hxg2 (by omega)
        rw [hxq] at hcm2
        exact hcm2
  intro q hq
  rw [normalizeManualTieRanks, normalizeManualTieRanks]
  exact (normStep_fold_agree (getTieRankCandidateMap points active) m m'
    (g.map Prod.fst) _ hagree active hl _ _ (fun _ _ => rfl) (fun _ _ => rfl)).1 q hq

/-! ### The `manual_order` invalid-group branch writes rank 0 / score 0 -/

theorem applyGroup_manual_invalid (uma : List ℚ) (okaPt ret : ℚ)
    (rm : PlayerKey → Option ℤ) (s : ℕ) (g : List (PlayerKey × ℚ)) (st : RS)
    (hnd : (g.map Prod.fst).Nodup) (hlen : 2 ≤ g.length)
    (hinv : manualValid rm s g = false) (x : PlayerKey × ℚ) (hx : x ∈ g) :
    (applyGroup uma okaPt ret TieRankMode.manual_order rm s g st).ranks x.1 = 0
    ∧ (applyGroup uma okaPt ret TieRankMode.manual_order rm s g st).scores x.1 = 0 := by
  rw [applyGroup, if_neg (by omega), if_neg (fun h => TieRankMode.noConfusion h),
    if_neg (by simp [hinv])]
  exact ⟨writeAll_ranks_mem _ _ _ _ x hx hnd _, writeAll_scores_mem _ _ _ _ x hx hnd _⟩

theorem processGroups_manual_invalid (uma : List ℚ) (okaPt ret : ℚ)
    (rm : PlayerKey → Option ℤ) (t1 t2 : List (List (PlayerKey × ℚ)))
    (g : List (PlayerKey × ℚ)) (hlen : 2 ≤ g.length)
    (x : PlayerKey × ℚ) (hx : x ∈ g) :
    ∀ (s : ℕ) (st : RS),
      (((t1 ++ g :: t2).flatten).map Prod.fst).Nodup →
      manualValid rm (s + (t1.map List.length).sum) g = false →
      (processGroups uma okaPt ret TieRankMode.manual_order rm s (t1 ++ g :: t2) st).ranks x.1 = 0
      ∧ (processGroups uma okaPt ret TieRankMode.manual_order rm s (t1 ++ g :: t2) st).scores x.1
          = 0 := by
  induction t1 with
  | nil =>
    intro s st hnd hinv
    simp only [List.nil_append] at hnd ⊢
    rw [processGroups]
    have hq := nodup_flatten_cons_head hnd x hx
    rw [processGroups_ranks_notMem _ _ _ _ _ _ _ hq, processGroups_scores_notMem _ _ _ _ _ _ _ hq]
    simp only [List.map_nil, List.sum_nil, Nat.add_zero] at hinv
    exact applyGroup_manual_invalid uma okaPt ret rm s g st
      (nodup_flatten_cons_group hnd) hlen hinv x hx
  | cons h t ih =>
    intro s st hnd hinv
    simp only [List.cons_append] at hnd ⊢
    rw [processGroups]
    have harith : s + h.length + (t.map List.length).sum
        = s + ((h :: t).map List.length).sum := by
      simp only [List.map_cons, List.sum_cons]
      omega
    exact ih (s + h.length) _ (nodup_flatten_cons_tail hnd) (by rw [harith]; exact hinv)

/-! ### `processGroups` is pointwise insensitive to the other groups' manual entries -/

theorem applyGroup_congr (uma : List ℚ) (okaPt ret : ℚ) (mode : TieRankMode)
    (rm rm2 : PlayerKey → Option ℤ) (s : ℕ) (g : List (PlayerKey × ℚ)) (st : RS)
    (h : ∀ x ∈ g, rm x.1 = rm2 x.1) :
    applyGroup uma okaPt ret mode rm s g st = applyGroup uma okaPt ret mode rm2 s g st := by
  have hsel : (g.map fun x => (rm x.1).getD 0) = g.map fun x => (rm2 x.1).getD 0 :=
    List.map_congr_left (fun x hx => by rw [h x hx])
  have hval : manualValid rm s g = manualValid rm2 s g := by
    rw [manualValid, manualValid, hsel]
  rw [applyGroup, applyGroup, hsel, hval]

theorem writeAll_point {β : Type} (key : β → PlayerKey) (rv : β → ℤ) (sv : β → ℚ)
    (l : List β) (q : PlayerKey) :
    ∀ st st' : RS, st.ranks q = st'.ranks q → st.scores q = st'.scores q →
      (writeAll key rv sv l st).ranks q = (writeAll key rv sv l st').ranks q
      ∧ (writeAll key rv sv l st).scores q = (writeAll key rv sv l st').scores q := by
  induction l with
  | nil => intro st st' h1 h2; exact ⟨h1, h2⟩
  | cons y ys ih =>
    intro st st' h1 h2
    rw [writeAll_cons, writeAll_cons]
    apply ih
    · by_cases hq : q = key y
      · subst hq
        exact (setFun_self st.ranks (key y) (rv y)).trans
          (setFun_self st'.ranks (key y) (rv y)).symm
      · exact (setFun_ne st.ranks hq (rv y)).trans
          (h1.trans (setFun_ne st'.ranks hq (rv y)).symm)
    · by_cases hq : q = key y
      · subst hq
        exact (setFun_self st.scores (key y) (sv y)).trans
          (setFun_self st'.scores (key y) (sv y)).symm
      · exact (setFun_ne st.scores hq (sv y)).trans
          (h2.trans (setFun_ne st'.scores hq (sv y)).symm)

theorem applyGroup_point (uma : List ℚ) (okaPt ret : ℚ) (mode : TieRankMode)
    (rm : PlayerKey → Option ℤ) (s : ℕ) (g : List (PlayerKey × ℚ)) (q : PlayerKey)
    (st st' : RS) (h1 : st.ranks q = st'.ranks q) (h2 : st.scores q = st'.scores q) :
    (applyGroup uma okaPt ret mode rm s g st).ranks q
        = (applyGroup uma okaPt ret mode rm s g st').ranks q
    ∧ (applyGroup uma okaPt ret mode rm s g st).scores q
        = (applyGroup uma okaPt ret mode rm s g st').scores q := by
  by_cases hone : g.length = 1
  · rw [applyGroup, applyGroup, if_pos hone, if_pos hone]
    exact writeAll_point _ _ _ _ q st st' h1 h2
  · by_cases hmode : mode = TieRankMode.shared_split
    · rw [applyGroup, applyGroup, if_neg hone, if_neg hone, if_pos hmode, if_pos hmode]
      exact writeAll_point _ _ _ _ q st st' h1 h2
    · by_cases hval : manualValid rm s g = true
      · rw [applyGroup, applyGroup, if_neg hone, if_neg hone, if_neg hmode, if_neg hmode,
          if_pos hval, if_pos hval]
        exact writeAll_point _ _ _ _ q st st' h1 h2
      · rw [applyGroup, applyGroup, if_neg hone, if_neg hone, if_neg hmode, if_neg hmode,
          if_neg hval, if_neg hval]
        exact writeAll_point _ _ _ _ q st st' h1 h2

theorem processGroups_point (uma : List ℚ) (okaPt ret : ℚ) (mode : TieRankMode)
    (rm rm2 : PlayerKey → Option ℤ) (q : PlayerKey) :
    ∀ gs : List (List (PlayerKey × ℚ)),
      (∀ h ∈ gs, (∀ x ∈ h, rm x.1 = rm2 x.1) ∨ (∀ x ∈ h, x.1 ≠ q)) →
      ∀ (s : ℕ) (st st' : RS), st.ranks q = st'.ranks q → st.scores q = st'.scores q →
        (processGroups uma okaPt ret mode rm s gs st).ranks q
            = (processGroups uma okaPt ret mode rm2 s gs st').ranks q
        ∧ (processGroups uma okaPt ret mode rm s gs st).scores q
            = (processGroups uma okaPt ret mode rm2 s gs st').scores q := by
  intro gs
  induction gs with
  | nil => intro _ s st st' h1 h2; exact ⟨h1, h2⟩
  | cons hd t ih =>
    intro hgs s st st' h1 h2
    rw [processGroups, processGroups]
    rcases hgs hd (List.mem_cons_self hd t) with hsame | hnot
    · have hpt := applyGroup_point uma okaPt ret mode rm s hd q st st' h1 h2
      rw [applyGroup_congr uma okaPt ret mode rm rm2 s hd st' hsame] at hpt
      exact ih (fun h2 hh => hgs h2 (List.mem_cons_of_mem hd hh)) (s + hd.length) _ _ hpt.1 hpt.2
    · have ha1 : (applyGroup uma okaPt ret mode rm s hd st).ranks q = st.ranks q :=
        applyGroup_ranks_notMem _ _ _ _ _ _ _ _ _ hnot
      have ha2 : (applyGroup uma okaPt ret mode rm s hd st).scores q = st.scores q :=
        applyGroup_scores_notMem _ _ _ _ _ _ _ _ _ hnot
      have hb1 : (applyGroup uma okaPt ret mode rm2 s hd st').ranks q = st'.ranks q :=
        applyGroup_ranks_notMem _ _ _ _ _ _ _ _ _ hnot
      have hb2 : (applyGroup uma okaPt ret mode rm2 s hd st').scores q = st'.scores q :=
        applyGroup_scores_notMem _ _ _ _ _ _ _ _ _ hnot
      exact ih (fun h2 hh => hgs h2 (List.mem_cons_of_mem hd hh)) (s + hd.length) _ _
        (ha1.trans (h1.trans hb1.symm)) (ha2.trans (h2.trans hb2.symm))

/-- A member of a group other than `g` in a key-nodup decomposition has its
key outside `g`. -/
theorem outside_group_keys (t1 t2 : List (List (PlayerKey × ℚ))) (g : List (PlayerKey × ℚ))
    (hnd : (((t1 ++ g :: t2).flatten).map Prod.fst).Nodup) :
    ∀ hgrp, hgrp ∈ t1 ∨ hgrp ∈ t2 → ∀ x ∈ hgrp, x.1 ∉ g.map Prod.fst := by
  intro hgrp hh x hx hxg
  rw [List.flatten_append, List.flatten_cons, List.map_append, List.map_append] at hnd
  rcases hh with hh | hh
  · have hdisj := List.disjoint_of_nodup_append hnd
    have hx1 : x.1 ∈ (t1.flatten).map Prod.fst :=
      List.mem_map_of_mem Prod.fst (List.mem_flatten.mpr ⟨hgrp, hh, hx⟩)
    exact hdisj hx1 (List.mem_append_left _ hxg)
  · have hnd2 := (List.nodup_append.mp hnd).2.1
    have hdisj := List.disjoint_of_nodup_append hnd2
    have hx1 : x.1 ∈ (t2.flatten).map Prod.fst :=
      List.mem_map_of_mem Prod.fst (List.mem_flatten.mpr ⟨hgrp, hh, hx⟩)
    exact hdisj hxg hx1

theorem applyTobi_none (mode : TieRankMode) (tb : ℚ) (last : ℤ)
    (sorted : List (PlayerKey × ℚ)) (st : RS) :
    applyTobi mode tb none last sorted st = applyTobiPenalty mode tb last sorted st := rfl

/-- C5 (confirmed): on a complete `manual_order` hand whose tie group `g`
(of size at least two, starting at sorted position `1 + |t1 groups|`) fails
the manual-rank validity test, `calculateRankAndScore` gives every member of
`g` rank 0 and score 0, while every player outside `g` receives exactly the
rank and score they would receive under any alternative manual assignment
`m'` differing from `m` only on `g`'s members (in particular a valid one). -/
theorem manual_invalid_group (points : Points) (uma : List ℚ) (tobiBonus : ℚ)
    (tobiPlayer : Option PlayerKey) (okaPt : ℚ) (m m' : PlayerKey → Option ℤ)
    (active : List PlayerKey) (ret : ℚ)
    (t1 t2 : List (List (PlayerKey × ℚ))) (g : List (PlayerKey × ℚ))
    (hnd : active.Nodup) (hcomp : ∀ p ∈ active, (points p).isSome)
    (hgs : groupRuns (sortedPlayers points active) = t1 ++ g :: t2)
    (hlen : 2 ≤ g.length)
    (hinv : manualValid (normalizeManualTieRanks points m active)
        (1 + (t1.map List.length).sum) g = false)
    (hagree : ∀ q, q ∉ g.map Prod.fst → m' q = m q) :
    (∀ x ∈ g,
      (calculateRankAndScore points uma tobiBonus tobiPlayer okaPt
          TieRankMode.manual_order m active ret).ranks x.1 = 0
      ∧ (calculateRankAndScore points uma tobiBonus tobiPlayer okaPt
          TieRankMode.manual_order m active ret).scores x.1 = 0)
    ∧ (∀ q, q ∉ g.map Prod.fst →
      (calculateRankAndScore points uma tobiBonus tobiPlayer okaPt
          TieRankMode.manual_order m active ret).ranks q
        = (calculateRankAndScore points uma tobiBonus tobiPlayer okaPt
            TieRankMode.manual_order m' active ret).ranks q
      ∧ (calculateRankAndScore points uma tobiBonus tobiPlayer okaPt
          TieRankMode.manual_order m active ret).scores q
        = (calculateRankAndScore points uma tobiBonus tobiPlayer okaPt
            TieRankMode.manual_order m' active ret).scores q) := by
  have hndkeys : (((t1 ++ g :: t2).flatten).map Prod.fst).Nodup := by
    rw [← hgs, groupRuns_flatten]
    exact sortedPlayers_keys_nodup points active hcomp hnd
  have hsortnd : ((sortedPlayers points active).map Prod.fst).Nodup :=
    sortedPlayers_keys_nodup points active hcomp hnd
  have hslen : (sortedPlayers points active).length = active.length := by
    rw [(sortedPlayers_perm points active).length_eq, filledList_length points active hcomp]
  have hflat : sortedPlayers points active = (t1 ++ g :: t2).flatten := by
    rw [← hgs, groupRuns_flatten]
  have hact : 2 ≤ active.length := by
    have h2 : g.length ≤ (sortedPlayers points active).length := by
      rw [hflat, List.flatten_append, List.flatten_cons]
      simp only [List.length_append]
      omega
    omega
  have hbase0 : ∀ x ∈ g,
      (baseResult points uma okaPt TieRankMode.manual_order m active ret).ranks x.1 = 0
      ∧ (baseResult points uma okaPt TieRankMode.manual_order m active ret).scores x.1 = 0 := by
    intro x hx
    rw [baseResult, hgs]
    exact processGroups_manual_invalid uma okaPt ret _ t1 t2 g hlen x hx 1 zeroRS hndkeys hinv
  have hrm : ∀ p, p ∉ g.map Prod.fst →
      normalizeManualTieRanks points m active p
        = normalizeManualTieRanks points m' active p :=
    normalize_agree_off points m m' active t1 t2 g hnd hcomp hgs hlen hagree
  have hbaseq : ∀ q, q ∉ g.map Prod.fst →
      (baseResult points uma okaPt TieRankMode.manual_order m active ret).ranks q
        = (baseResult points uma okaPt TieRankMode.manual_order m' active ret).ranks q
      ∧ (baseResult points uma okaPt TieRankMode.manual_order m active ret).scores q
        = (baseResult points uma okaPt TieRankMode.manual_order m' active ret).scores q := by
    intro q hq
    rw [baseResult, baseResult, hgs]
    refine processGroups_point uma okaPt ret TieRankMode.manual_order _ _ q
      (t1 ++ g :: t2) ?_ 1 zeroRS zeroRS rfl rfl
    intro hgrp hmem
    rcases List.mem_append.mp hmem with hh | hh
    · exact Or.inl (fun x hx =>
        hrm x.1 (outside_group_keys t1 t2 g hndkeys hgrp (Or.inl hh) x hx))
    · rcases List.mem_cons.mp hh with rfl | hh
      · exact Or.inr (fun x hx hxq => hq (hxq ▸ List.mem_map_of_mem Prod.fst hx))
      · exact Or.inl (fun x hx =>
          hrm x.1 (outside_group_keys t1 t2 g hndkeys hgrp (Or.inr hh) x hx))
  rw [calculateRankAndScore_complete points uma tobiBonus tobiPlayer okaPt
      TieRankMode.manual_order m active ret hcomp,
    calculateRankAndScore_complete points uma tobiBonus tobiPlayer okaPt
      TieRankMode.manual_order m' active ret hcomp]
  by_cases hgate : tobiGate (sortedPlayers points active) tobiPlayer tobiBonus = true
  · rw [if_pos hgate, if_pos hgate]
    constructor
    · intro x hx
      have hr0 := (hbase0 x hx).1
      have hs0 := (hbase0 x hx).2
      have hpensc : (applyTobiPenalty TieRankMode.manual_order tobiBonus
          ((active.length : ℕ) : ℤ) (sortedPlayers points active)
          (baseResult points uma okaPt TieRankMode.manual_order m active ret)).scores x.1
          = (baseResult points uma okaPt TieRankMode.manual_order m active ret).scores x.1 := by
        rw [applyTobiPenalty_manual_scores tobiBonus _ _ _ hsortnd x.1]
        rw [if_neg (fun hc => by
          have h2 := hc.2
          rw [hr0] at h2
          omega)]
      refine ⟨?_, ?_⟩
      · rw [applyTobi_ranks]
        exact hr0
      · cases tobiPlayer with
        | none =>
          rw [applyTobi_none]
          exact hpensc.trans hs0
        | some t =>
          rw [applyTobi_some_scores]
          rw [if_neg (fun hc => by
            have h1 := hc.1
            rw [applyTobiPenalty_ranks, ← hc.2, hr0] at h1
            exact lt_irrefl 0 h1)]
          exact hpensc.trans hs0
    · intro q hq
      have hb1 := (hbaseq q hq).1
      have hb2 := (hbaseq q hq).2
      have hpen : ∀ b b' : RS, b.ranks q = b'.ranks q → b.scores q = b'.scores q →
          (applyTobiPenalty TieRankMode.manual_order tobiBonus
            ((active.length : ℕ) : ℤ) (sortedPlayers points active) b).scores q
          = (applyTobiPenalty TieRankMode.manual_order tobiBonus
            ((active.length : ℕ) : ℤ) (sortedPlayers points active) b').scores q := by
        intro b b' e1 e2
        rw [applyTobiPenalty_manual_scores tobiBonus _ _ _ hsortnd q,
          applyTobiPenalty_manual_scores tobiBonus _ _ _ hsortnd q, e1, e2]
      refine ⟨?_, ?_⟩
      · rw [applyTobi_ranks, applyTobi_ranks]
        exact hb1
      · cases tobiPlayer with
        | none =>
          rw [applyTobi_none, applyTobi_none]
          exact hpen _ _ hb1 hb2
        | some t =>
          rw [applyTobi_some_scores, applyTobi_some_scores]
          have hpsc := hpen _ _ hb1 hb2
          by_cases hqt : q = t
          · subst hqt
            rw [applyTobiPenalty_ranks, applyTobiPenalty_ranks, hb1]
            by_cases hpos : 0 < (baseResult points uma okaPt TieRankMode.manual_order
                m' active ret).ranks q
            · rw [if_pos ⟨hpos, rfl⟩, if_pos ⟨hpos, rfl⟩, hpsc]
            · rw [if_neg (fun hc => hpos hc.1), if_neg (fun hc => hpos hc.1)]
              exact hpsc
          · rw [if_neg (fun hc => hqt hc.2), if_neg (fun hc => hqt hc.2)]
            exact hpsc
  · rw [if_neg hgate, if_neg hgate]
    exact ⟨fun x hx => hbase0 x hx, fun q hq => hbaseq q hq⟩

/-- A hand with a two-way tie for second place. -/
def midTiePoints : Points := fun p => match p with
  | PlayerKey.A => some 40000
  | PlayerKey.B => some 30000
  | PlayerKey.C => some 30000
  | PlayerKey.D => some 0

/-- Colliding manual ranks for the second-place tie group. -/
def collidingMidRanks : PlayerKey → Option ℤ := fun p => match p with
  | PlayerKey.B => some 2
  | PlayerKey.C => some 2
  | _ => none

/-- A valid manual assignment for the same tie group. -/
def resolvedMidRanks : PlayerKey → Option ℤ := fun p => match p with
  | PlayerKey.B => some 2
  | PlayerKey.C => some 3
  | _ => none

/-- C5 witness: the hand `A 40000, B 30000, C 30000, D 0` under `manual_order`
with colliding manual ranks `B ↦ 2, C ↦ 2` zeroes out the `B, C` tie group
and leaves `A` and `D` exactly as under the valid assignment `B ↦ 2, C ↦ 3`. -/
theorem manual_invalid_group_witness :
    (calculateRankAndScore midTiePoints umaTenThirty 0 none 20 TieRankMode.manual_order
        collidingMidRanks fourPlayers 30000).ranks PlayerKey.B = 0
    ∧ (calculateRankAndScore midTiePoints umaTenThirty 0 none 20 TieRankMode.manual_order
        collidingMidRanks fourPlayers 30000).scores PlayerKey.C = 0
    ∧ (calculateRankAndScore midTiePoints umaTenThirty 0 none 20 TieRankMode.manual_order
        collidingMidRanks fourPlayers 30000).ranks PlayerKey.A
      = (calculateRankAndScore midTiePoints umaTenThirty 0 none 20 TieRankMode.manual_order
          resolvedMidRanks fourPlayers 30000).ranks PlayerKey.A
    ∧ (calculateRankAndScore midTiePoints umaTenThirty 0 none 20 TieRankMode.manual_order
        collidingMidRanks fourPlayers 30000).scores PlayerKey.D
      = (calculateRankAndScore midTiePoints umaTenThirty 0 none 20 TieRankMode.manual_order
          resolvedMidRanks fourPlayers 30000).scores PlayerKey.D := by
  have h := manual_invalid_group midTiePoints umaTenThirty 0 none 20 collidingMidRanks
    resolvedMidRanks fourPlayers 30000 [[(PlayerKey.A, 40000)]] [[(PlayerKey.D, 0)]]
    [(PlayerKey.B, 30000), (PlayerKey.C, 30000)]
    (by decide) (by decide) (by decide) (by decide) (by decide)
    (fun q hq => by
      cases q with
      | A => rfl
      | B => rfl
      | C => exact absurd (by decide) hq
      | D => rfl)
  exact ⟨(h.1 (PlayerKey.B, 30000) (by decide)).1,
    (h.1 (PlayerKey.C, 30000) (by decide)).2,
    (h.2 PlayerKey.A (by decide)).1,
    (h.2 PlayerKey.D (by decide)).2⟩

end MahjongScore



